import Mathlib

/-!
Verification development for the review-analysis scoring engine
(`app/scoring.py` of the insyoku_sakura repository).

The scoring core is pure Python over floats, strings and datetimes.  We give
a shallow embedding: floats become `ℚ` (the arithmetic involved is exact
rational arithmetic), strings become `List Char`, `datetime` values become
integers (microseconds since an epoch; only differences and comparisons are
used, so the unit is irrelevant), and `Optional[T]` becomes `Option T`.
Python's `round` (banker's rounding, half-to-even) is modelled by `pyRound`.

Two standard-library calls of the source have no source under `src/` and are
modelled explicitly, faithful to their documented behaviour:
`unicodedata.normalize("NFKC", ·)` as a character-wise compatibility fold
(`nfkcChar`, covering the full-width/half-width folds the spec names), and
`difflib.SequenceMatcher.ratio` as the longest-matching-block recursion with
difflib's autojunk rule (`smRatio` below).
-/

/-- Python `round` on an exact rational: round to nearest, ties to even. -/
def pyRound (q : ℚ) : ℤ :=
  if q - ⌊q⌋ < 1/2 then ⌊q⌋
  else if (1:ℚ)/2 < q - ⌊q⌋ then ⌊q⌋ + 1
  else if ⌊q⌋ % 2 = 0 then ⌊q⌋ else ⌊q⌋ + 1

/-- `clamp` from `app/scoring.py`: `max(lo, min(hi, x))`. -/
def clamp (x lo hi : ℚ) : ℚ :=
  max lo (min hi x)

/-- Python's substring test `needle in hay` on character lists. -/
def pyIn (needle : List Char) : List Char → Bool
  | [] => needle.isEmpty
  | c :: t => needle.isPrefixOf (c :: t) || pyIn needle t

/-- The whitespace characters stripped by Python's `str.strip()`
(the ASCII whitespace set; the NFKC fold has already turned the
ideographic space into an ASCII space by the time `strip` runs). -/
def isPyWs (c : Char) : Bool :=
  c = ' ' || c = '\t' || c = '\n' || c = '\r' || c = '\x0b' || c = '\x0c'

/-- Python `str.strip()`: drop leading and trailing whitespace. -/
def pyStrip (l : List Char) : List Char :=
  ((l.dropWhile isPyWs).reverse.dropWhile isPyWs).reverse

/-- Modelled from the spec: `unicodedata.normalize("NFKC", ·)` (the Python
standard library's Unicode normalizer, no source under `src/`).  The spec
describes it as "full-width/half-width and compatibility character folding";
we model it as a character-wise fold on a table of such characters
(identity elsewhere).  Every character in the table's image is a fixed
point, which is what NFKC's own idempotence guarantees. -/
def nfkcChar (c : Char) : Char :=
  if c = '　' then ' '
  else if c = '（' then '('
  else if c = '）' then ')'
  else if c = '！' then '!'
  else if c = '？' then '?'
  else if c = '０' then '0'
  else if c = '１' then '1'
  else if c = '５' then '5'
  else if c = 'Ａ' then 'A'
  else if c = 'ａ' then 'a'
  else if c = '／' then '/'
  else if c = '．' then '.'
  else c

/-- NFKC normalization of a whole string (character-wise fold model). -/
def nfkc (l : List Char) : List Char :=
  l.map nfkcChar

/-- `_normalize_text` from `app/scoring.py`:
`unicodedata.normalize("NFKC", text or "").strip()`.
(`text` is a total `str` in the model, so `text or ""` is `text`.) -/
def normalize_text (text : List Char) : List Char :=
  pyStrip (nfkc text)

/-- Python `str.lower()`, character-wise (ASCII case fold; the characters
this program lowercases are ASCII after NFKC folding). -/
def pyLowerChar (c : Char) : Char :=
  if 'A' ≤ c ∧ c ≤ 'Z' then Char.ofNat (c.toNat + 32) else c

/-- Python `str.lower()` on a whole string. -/
def pyLower (l : List Char) : List Char :=
  l.map pyLowerChar

/-- Python `str.replace(pat, "")`: delete every non-overlapping occurrence
of `pat`, scanning left to right.  (On an empty pattern the source never
calls it; we return the text unchanged.)  The recursion is fuelled by the
remaining text length, which bounds the number of steps: each step consumes
at least one character. -/
def replaceEmptyGo (pat : List Char) : ℕ → List Char → List Char
  | _, [] => []
  | 0, l => l
  | fuel + 1, c :: t =>
    if pat ≠ [] ∧ pat.isPrefixOf (c :: t) then
      replaceEmptyGo pat fuel ((c :: t).drop pat.length)
    else
      c :: replaceEmptyGo pat fuel t

/-- `text.replace(pat, "")` with enough fuel for the whole text. -/
def replaceEmpty (pat l : List Char) : List Char :=
  replaceEmptyGo pat l.length l

/-- `FRAUD_KEYWORDS` from `app/scoring.py`. -/
def FRAUD_KEYWORDS : List (List Char) :=
  ["詐欺".toList, "ぼったくり".toList, "騙された".toList, "騙し".toList,
   "不正請求".toList, "法外".toList, "高すぎる".toList, "scam".toList,
   "rip-off".toList, "rip off".toList, "fraud".toList]

/-- `BUSINESS_SUFFIXES` from `app/scoring.py`. -/
def BUSINESS_SUFFIXES : List (List Char) :=
  ["株式会社".toList, "（株）".toList, "(株)".toList, "有限会社".toList,
   "合同会社".toList, "inc".toList, "co.,ltd".toList, "co., ltd".toList,
   "llc".toList]

/-- `_normalize_name` from `app/scoring.py`: NFKC + strip, lowercase,
delete each business suffix in turn, delete spaces. -/
def normalize_name (name : List Char) : List Char :=
  (BUSINESS_SUFFIXES.foldl (fun text suffix => replaceEmpty suffix text)
      (pyLower (normalize_text name))).filter (fun c => c ≠ ' ')

/-- `PlaceReview` from `app/models.py` (pydantic validates `1 ≤ rating ≤ 5`;
the model carries the integer unconstrained, as the scoring code does not
rely on the bound). -/
structure PlaceReview where
  rating : ℤ
  text : List Char
  created_at : ℤ
deriving DecidableEq, Repr

/-- `PlaceData` from `app/models.py`. -/
structure PlaceData where
  place_id : List Char
  name : List Char
  rating : Option ℚ
  user_ratings_total : Option ℤ
  reviews : List PlaceReview
deriving DecidableEq, Repr

/-- `AnalyzeRequest` from `app/models.py` (the URL field is opaque to the
scoring core). -/
structure AnalyzeRequest where
  google_maps_url : List Char
  tabelog_rating : Option ℚ
  tabelog_review_count : Option ℤ
  tabelog_name : Option (List Char)
deriving DecidableEq, Repr

/-- `FraudKeywordCount` from `app/models.py`. -/
structure FraudKeywordCount where
  keyword : List Char
  count : ℕ
deriving DecidableEq, Repr

/-- `AnalysisSignals` from `app/models.py`. -/
structure AnalysisSignals where
  total_reviews : ℕ
  short_5_ratio : ℚ
  burst_7day_ratio : ℚ
  rating_diff_google_minus_tabelog : Option ℚ
  tabelog_missing : Bool
  name_similarity_google_vs_tabelog : Option ℚ
  low_star_ratio : ℚ
  fraud_keyword_ratio : ℚ
deriving DecidableEq, Repr

/-- `AnalysisResponse` from `app/models.py`. -/
structure AnalysisResponse where
  sakura_score : ℤ
  fraud_score : ℤ
  risk_label : String
  signals : AnalysisSignals
  fraud_keywords : List FraudKeywordCount
  comments_ja : List String
deriving DecidableEq, Repr

/-- difflib's autojunk rule: when `len(b) >= 200`, an element occurring more
than `len(b) // 100 + 1` times in `b` is "popular" and treated as junk. -/
def popularJunk (b : List Char) (c : Char) : Bool :=
  decide (200 ≤ b.length) && decide (b.length / 100 + 1 < b.count c)

/-- The Python slice `l[i : i+k]`. -/
def pySlice (l : List Char) (i k : ℕ) : List Char :=
  (l.drop i).take k

/-- A matching block for `difflib.SequenceMatcher.find_longest_match`:
`a[i:i+k] == b[j:j+k]` inside the rectangle `[alo,ahi) × [blo,bhi)`, with no
junk element of `b` inside the block (junk positions are removed from the
`b2j` index, so the inner dynamic program only ever matches non-junk). -/
def okMatch (a b : List Char) (junk : Char → Bool) (alo ahi blo bhi i j k : ℕ) : Bool :=
  decide (alo ≤ i) && decide (i + k ≤ ahi) && decide (blo ≤ j) && decide (j + k ≤ bhi) &&
  decide (pySlice a i k = pySlice b j k) && (pySlice b j k).all (fun c => !junk c)

/-- Scan `f` over `s, s+1, …, s+n-1` and return the first hit. -/
def firstHit {α : Type} (f : ℕ → Option α) : ℕ → ℕ → Option α
  | _, 0 => none
  | s, n + 1 =>
    match f s with
    | some x => some x
    | none => firstHit f (s + 1) n

/-- Scan `f` over `k, k-1, …, 1` and return the first hit. -/
def bestK {α : Type} (f : ℕ → Option α) : ℕ → Option α
  | 0 => none
  | k + 1 =>
    match f (k + 1) with
    | some x => some x
    | none => bestK f k

/-- The lexicographically first `(i, j)` carrying a size-`k` matching block
(earliest `i`, then earliest `j` — `find_longest_match`'s documented
tie-break). -/
def findIJ (a b : List Char) (junk : Char → Bool) (alo ahi blo bhi k : ℕ) :
    Option (ℕ × ℕ) :=
  firstHit (fun i =>
    firstHit (fun j =>
      if okMatch a b junk alo ahi blo bhi i j k then some (i, j) else none)
      blo (bhi - blo))
    alo (ahi - alo)

/-- The maximal junk-free matching block, earliest `i` then earliest `j`
(`find_longest_match`'s inner dynamic program); `(alo, blo, 0)` when the
rectangle admits no junk-free match. -/
def findCore (a b : List Char) (junk : Char → Bool) (alo ahi blo bhi : ℕ) :
    ℕ × ℕ × ℕ :=
  match bestK (fun k =>
      (findIJ a b junk alo ahi blo bhi k).map (fun ij => (ij.1, ij.2, k)))
      (min (ahi - alo) (bhi - blo)) with
  | some r => r
  | none => (alo, blo, 0)

/-- `l[i]` with a default (all accesses of the source are in range). -/
def charAt (l : List Char) (i : ℕ) : Char :=
  l.getD i ' '

/-- `find_longest_match`'s leftward extension loop:
`while besti > alo and bestj > blo and p(b[bestj-1]) and a[besti-1] == b[bestj-1]`
(`p` is "not junk" for the first pass, "junk" for the second). -/
def extLeft (a b : List Char) (p : Char → Bool) (alo blo : ℕ) :
    ℕ → ℕ × ℕ × ℕ → ℕ × ℕ × ℕ
  | 0, r => r
  | fuel + 1, (i, j, k) =>
    if decide (alo < i) && decide (blo < j) && p (charAt b (j - 1)) &&
        (charAt a (i - 1) == charAt b (j - 1)) then
      extLeft a b p alo blo fuel (i - 1, j - 1, k + 1)
    else
      (i, j, k)

/-- `find_longest_match`'s rightward extension loop:
`while besti+bestsize < ahi and bestj+bestsize < bhi and p(b[bestj+bestsize])
and a[besti+bestsize] == b[bestj+bestsize]`. -/
def extRight (a b : List Char) (p : Char → Bool) (ahi bhi i j : ℕ) :
    ℕ → ℕ → ℕ
  | 0, k => k
  | fuel + 1, k =>
    if decide (i + k < ahi) && decide (j + k < bhi) && p (charAt b (j + k)) &&
        (charAt a (i + k) == charAt b (j + k)) then
      extRight a b p ahi bhi i j fuel (k + 1)
    else
      k

/-- `difflib.SequenceMatcher.find_longest_match` on the rectangle
`[alo,ahi) × [blo,bhi)`: the maximal junk-free block, extended first by
matching non-junk elements on both ends, then by matching junk elements. -/
def flm (a b : List Char) (junk : Char → Bool) (alo ahi blo bhi : ℕ) :
    ℕ × ℕ × ℕ :=
  let c0 := findCore a b junk alo ahi blo bhi
  let c1 := extLeft a b (fun ch => !junk ch) alo blo (c0.1 - alo) c0
  let k2 := extRight a b (fun ch => !junk ch) ahi bhi c1.1 c1.2.1
    (ahi - (c1.1 + c1.2.2)) c1.2.2
  let c3 := extLeft a b junk alo blo (c1.1 - alo) (c1.1, c1.2.1, k2)
  let k4 := extRight a b junk ahi bhi c3.1 c3.2.1 (ahi - (c3.1 + c3.2.2)) c3.2.2
  (c3.1, c3.2.1, k4)

/-- Total size of the matching blocks of `get_matching_blocks`' recursion
(fuelled; `matchTotal` supplies enough fuel for the recursion to complete,
since each level strictly shrinks the `a`-side width). -/
def matchSumF (a b : List Char) (junk : Char → Bool) :
    ℕ → ℕ → ℕ → ℕ → ℕ → ℕ
  | 0, _, _, _, _ => 0
  | fuel + 1, alo, ahi, blo, bhi =>
    let r := flm a b junk alo ahi blo bhi
    if r.2.2 = 0 then 0
    else
      matchSumF a b junk fuel alo r.1 blo r.2.1 + r.2.2 +
        matchSumF a b junk fuel (r.1 + r.2.2) ahi (r.2.1 + r.2.2) bhi

/-- Total matched size over the full rectangle. -/
def matchTotal (a b : List Char) (junk : Char → Bool) : ℕ :=
  matchSumF a b junk (a.length + 1) 0 a.length 0 b.length

/-- `difflib.SequenceMatcher(a=a, b=b).ratio()`: `2*M / (len(a)+len(b))`
(and `1` on two empty sequences, as in difflib's `_calculate_ratio`). -/
def smRatio (a b : List Char) : ℚ :=
  if a.length + b.length = 0 then 1
  else 2 * (matchTotal a b (popularJunk b) : ℚ) / (a.length + b.length)

/-- `_calc_short_5_ratio` from `app/scoring.py`: among the reviews, count
those with rating 5 whose normalized text has length ≤ 15, divide by
`total`. -/
def calc_short_5_ratio (reviews : List PlaceReview) (total : ℕ) : ℚ :=
  if total = 0 then 0
  else (reviews.countP
    (fun r => r.rating == 5 && decide ((normalize_text r.text).length ≤ 15)) : ℚ)
    / total

/-- `timedelta(days=7)` in the time unit of the model (microseconds). -/
def sevenDays : ℤ := 7 * 24 * 60 * 60 * 1000000

/-- The body of `_calc_burst_ratio`'s loop: append the current timestamp to
the deque, evict from the front while strictly older than
`ts - timedelta(days=7)`, and track the maximum deque length seen. -/
def burstLoop : List ℤ → List ℤ → ℕ → ℕ
  | [], _, m => m
  | ts :: rest, window, m =>
    let w := (window ++ [ts]).dropWhile (fun x => decide (x < ts - sevenDays))
    burstLoop rest w (max m w.length)

/-- `_calc_burst_ratio` from `app/scoring.py`.  (Every `created_at` of the
model is a timestamp, so the `isinstance` filter keeps all of them.) -/
def calc_burst_ratio (reviews : List PlaceReview) (total : ℕ) : ℚ :=
  if total < 5 then 0
  else
    let times := (reviews.map (fun r => r.created_at)).insertionSort (· ≤ ·)
    if times = [] then 0
    else
      let max_in_window := burstLoop times [] 0
      if total = 0 then 0 else (max_in_window : ℚ) / total

/-- `_calc_rating_diff` from `app/scoring.py`. -/
def calc_rating_diff (google_rating tabelog_rating : Option ℚ) : Option ℚ :=
  match google_rating, tabelog_rating with
  | some g, some t => some (g - t)
  | _, _ => none

/-- `_calc_name_similarity` from `app/scoring.py` (Python's
`if not tabelog_name` is true both for `None` and for the empty string). -/
def calc_name_similarity (google_name : List Char)
    (tabelog_name : Option (List Char)) : Option ℚ :=
  match tabelog_name with
  | none => none
  | some t =>
    if t = [] then none
    else
      let g_norm := normalize_name google_name
      let t_norm := normalize_name t
      if g_norm = [] ∨ t_norm = [] then none
      else some (smRatio g_norm t_norm)

/-- `_calc_low_star_ratio` from `app/scoring.py`. -/
def calc_low_star_ratio (reviews : List PlaceReview) (total : ℕ) : ℚ :=
  if total = 0 then 0
  else (reviews.countP (fun r => r.rating == 1 || r.rating == 2) : ℚ) / total

/-- Whether one review's normalized lowercased text contains the keyword
(the source lowercases the keyword too before the substring test). -/
def reviewHasKeyword (r : PlaceReview) (kw : List Char) : Bool :=
  pyIn (pyLower kw) (pyLower (normalize_text r.text))

/-- `_calc_fraud_stats`' ratio: reviews with at least one keyword hit,
divided by `total` (a review counts once no matter how many keywords it
matches). -/
def calc_fraud_keyword_ratio (reviews : List PlaceReview) (total : ℕ) : ℚ :=
  if total = 0 then 0
  else (reviews.countP (fun r => FRAUD_KEYWORDS.any (reviewHasKeyword r)) : ℚ)
    / total

/-- `_calc_fraud_stats`' per-keyword counter: how many reviews contain the
keyword (each review is counted at most once per keyword). -/
def fraudKeywordCount (reviews : List PlaceReview) (kw : List Char) : ℕ :=
  reviews.countP (fun r => reviewHasKeyword r kw)

/-- The `fraud_keywords` field of the response:
`[FraudKeywordCount(keyword=k, count=c) for k, c in detail.items() if c > 0]`.
(The Python `Counter` iterates its keys in first-insertion order; the model
lists the same keyword/count pairs in `FRAUD_KEYWORDS` order — no claim
depends on the order of this list.) -/
def fraudKeywordList (reviews : List PlaceReview) : List FraudKeywordCount :=
  FRAUD_KEYWORDS.filterMap (fun kw =>
    let c := fraudKeywordCount reviews kw
    if 0 < c then some ⟨kw, c⟩ else none)

/-- `_calc_sakura_score` from `app/scoring.py`. -/
def calc_sakura_score (short_5_ratio burst_7day_ratio : ℚ)
    (rating_diff : Option ℚ) (tabelog_missing : Bool)
    (name_similarity : Option ℚ) (low_star_ratio : ℚ)
    (total_reviews : ℕ) : ℤ :=
  let s1 := clamp (short_5_ratio * 100) 0 40
  let s2 := s1 + clamp (burst_7day_ratio * 100) 0 25
  let s3 := s2 + (match rating_diff with
    | some d => if 0 < d then clamp (d * 15) 0 20 else 0
    | none => 0)
  let s4 := s3 + (if tabelog_missing then 5 else 0)
  let s5 := s4 + (match name_similarity with
    | some v => clamp ((1 - v) * 20) 0 15
    | none => 0)
  let s6 := s5 + (if 20 ≤ total_reviews ∧ low_star_ratio < 1/10 then 10 else 0)
  min 100 (pyRound s6)

/-- `_calc_fraud_score` from `app/scoring.py`. -/
def calc_fraud_score (fraud_keyword_ratio low_star_ratio : ℚ)
    (total_reviews : ℕ) : ℤ :=
  let f1 := clamp (fraud_keyword_ratio * 200) 0 90
  let f2 := f1 + (if 10 ≤ total_reviews ∧ 3/10 ≤ low_star_ratio then 10 else 0)
  min 100 (pyRound f2)

/-- `_calc_risk_label` from `app/scoring.py`. -/
def calc_risk_label (sakura_score fraud_score : ℤ) : String :=
  if 70 ≤ sakura_score ∨ 70 ≤ fraud_score then "high"
  else if 40 ≤ sakura_score ∨ 40 ≤ fraud_score then "medium"
  else "low"

/-- `_build_comments` from `app/scoring.py` (Python `int(...)` truncates
toward zero; the ratio is non-negative, so it is the floor). -/
def build_comments (short_5_ratio burst_7day_ratio : ℚ)
    (rating_diff : Option ℚ) (tabelog_missing : Bool)
    (fraud_keyword_ratio : ℚ) : List String :=
  (if 4/10 ≤ short_5_ratio then
    ["短文または無言の★5口コミが全体の" ++ toString ⌊short_5_ratio * 100⌋
      ++ "%を占めています。"]
   else []) ++
  (if 4/10 ≤ burst_7day_ratio then
    ["短期間に口コミが集中して投稿されており、不自然な増え方です。"] else []) ++
  (match rating_diff with
   | some d =>
     if 1/2 ≤ d then
       ["Googleと食べログの評価差が大きく、Google側の評価が高めに出ています。"]
     else []
   | none => []) ++
  (if tabelog_missing then
    ["食べログに情報がほとんどなく、Googleのみ口コミが集まっています。"] else []) ++
  (if 0 < fraud_keyword_ratio then
    ["『詐欺』『ぼったくり』などのネガティブなキーワードを含む口コミが複数見つかりました。"]
   else [])

/-- `analyze_place` from `app/scoring.py`. -/
def analyze_place (place : PlaceData) (request : AnalyzeRequest) :
    AnalysisResponse :=
  let reviews := place.reviews
  let total_reviews := reviews.length
  let short_5_ratio := calc_short_5_ratio reviews total_reviews
  let burst_7day_ratio := calc_burst_ratio reviews total_reviews
  let rating_diff := calc_rating_diff place.rating request.tabelog_rating
  let tabelog_missing :=
    request.tabelog_rating == none && request.tabelog_review_count == none
  let name_similarity := calc_name_similarity place.name request.tabelog_name
  let low_star_ratio := calc_low_star_ratio reviews total_reviews
  let fraud_keyword_ratio := calc_fraud_keyword_ratio reviews total_reviews
  let sakura_score := calc_sakura_score short_5_ratio burst_7day_ratio
    rating_diff tabelog_missing name_similarity low_star_ratio total_reviews
  let fraud_score := calc_fraud_score fraud_keyword_ratio low_star_ratio
    total_reviews
  { sakura_score := sakura_score
    fraud_score := fraud_score
    risk_label := calc_risk_label sakura_score fraud_score
    signals :=
      { total_reviews := total_reviews
        short_5_ratio := short_5_ratio
        burst_7day_ratio := burst_7day_ratio
        rating_diff_google_minus_tabelog := rating_diff
        tabelog_missing := tabelog_missing
        name_similarity_google_vs_tabelog := name_similarity
        low_star_ratio := low_star_ratio
        fraud_keyword_ratio := fraud_keyword_ratio }
    fraud_keywords := fraudKeywordList reviews
    comments_ja := build_comments short_5_ratio burst_7day_ratio rating_diff
      tabelog_missing fraud_keyword_ratio }

/-- Clamp an integer score to `[0, 100]` (the spec's final clamp). -/
def intClamp (n : ℤ) : ℤ :=
  min 100 (max 0 n)

/-- The sakura-score term sum exactly as the spec states it: each term
individually capped with `min` (no per-term lower clamp), conditions as
written. -/
def sakuraSpecSum (s b : ℚ) (rd : Option ℚ) (tm : Bool) (ns : Option ℚ)
    (ls : ℚ) (total : ℕ) : ℚ :=
  min (s * 100) 40 + min (b * 100) 25 +
  (match rd with
   | some d => if 0 < d then min (d * 15) 20 else 0
   | none => 0) +
  (if tm then 5 else 0) +
  (match ns with
   | some v => min ((1 - v) * 20) 15
   | none => 0) +
  (if 20 ≤ total ∧ ls < 1/10 then 10 else 0)

/-- The fraud-score term sum exactly as the spec states it. -/
def fraudSpecSum (fkr ls : ℚ) (total : ℕ) : ℚ :=
  min (fkr * 200) 90 + (if 10 ≤ total ∧ 3/10 ≤ ls then 10 else 0)

/-- The review timestamps, sorted ascending (as `_calc_burst_ratio` sorts
them). -/
def sortedTimes (reviews : List PlaceReview) : List ℤ :=
  (reviews.map (fun r => r.created_at)).insertionSort (· ≤ ·)

/-- How many of the timestamps fall within the 7-day window ending at `t`
(entries strictly older than `t - 7 days` are outside the window). -/
def windowCount (times : List ℤ) (t : ℤ) : ℕ :=
  times.countP (fun x => decide (t - sevenDays ≤ x) && decide (x ≤ t))

/-- The maximum number of timestamps falling within any sliding 7-day
window (windows anchored at each timestamp). -/
def windowMax (times : List ℤ) : ℕ :=
  (times.map (windowCount times)).foldr max 0

/-- Proof-support mirror of `burstLoop`: the successive window sizes the
sliding-window sweep observes, one per timestamp consumed (`done` is the
already-consumed prefix). -/
def stepWindows : List ℤ → List ℤ → List ℕ
  | [], _ => []
  | ts :: rest, done =>
    (done ++ [ts]).countP (fun x => decide (ts - sevenDays ≤ x)) ::
      stepWindows rest (done ++ [ts])

/-- The trailing-whitespace half of `str.strip()` (proof-support view:
`pyStrip` is this composed with a leading `dropWhile`). -/
def pyStripBack (l : List Char) : List Char :=
  (l.reverse.dropWhile isPyWs).reverse

theorem pyRound_nonneg {q : ℚ} (hq : 0 ≤ q) : 0 ≤ pyRound q := by
  have h0 : (0 : ℤ) ≤ ⌊q⌋ := Int.le_floor.mpr (by exact_mod_cast hq)
  unfold pyRound
  split_ifs <;> omega

theorem clamp_of_nonneg {x hi : ℚ} (hx : 0 ≤ x) (hh : 0 ≤ hi) :
    clamp x 0 hi = min hi x := by
  unfold clamp
  exact max_eq_right (le_min hh hx)

theorem clamp_nonneg (x hi : ℚ) : 0 ≤ clamp x 0 hi :=
  le_max_left 0 (min hi x)

theorem countP_div_mem {l : List α} {p : α → Bool} (h : l.length ≠ 0) :
    0 ≤ (l.countP p : ℚ) / l.length ∧ (l.countP p : ℚ) / l.length ≤ 1 := by
  have hpos : (0 : ℚ) < l.length := by
    exact_mod_cast Nat.pos_of_ne_zero h
  constructor
  · positivity
  · rw [div_le_one hpos]
    exact_mod_cast List.countP_le_length p

theorem short5_range (reviews : List PlaceReview) :
    0 ≤ calc_short_5_ratio reviews reviews.length ∧
      calc_short_5_ratio reviews reviews.length ≤ 1 := by
  unfold calc_short_5_ratio
  split_ifs with h
  · exact ⟨le_refl 0, zero_le_one⟩
  · exact countP_div_mem h

theorem low_star_range (reviews : List PlaceReview) :
    0 ≤ calc_low_star_ratio reviews reviews.length ∧
      calc_low_star_ratio reviews reviews.length ≤ 1 := by
  unfold calc_low_star_ratio
  split_ifs with h
  · exact ⟨le_refl 0, zero_le_one⟩
  · exact countP_div_mem h

theorem fraud_ratio_range (reviews : List PlaceReview) :
    0 ≤ calc_fraud_keyword_ratio reviews reviews.length ∧
      calc_fraud_keyword_ratio reviews reviews.length ≤ 1 := by
  unfold calc_fraud_keyword_ratio
  split_ifs with h
  · exact ⟨le_refl 0, zero_le_one⟩
  · exact countP_div_mem h

theorem burstLoop_le (L : List ℤ) :
    ∀ w m, burstLoop L w m ≤ max m (w.length + L.length) := by
  induction L with
  | nil => intro w m; simp [burstLoop]
  | cons ts rest ih =>
    intro w m
    rw [burstLoop]
    refine le_trans (ih _ _) ?_
    have h1 : ((w ++ [ts]).dropWhile
        (fun x => decide (x < ts - sevenDays))).length ≤ w.length + 1 := by
      have := (List.dropWhile_sublist
        (fun x : ℤ => decide (x < ts - sevenDays)) (l := w ++ [ts])).length_le
      simpa using this
    simp only [List.length_cons, max_le_iff, le_max_iff]
    omega

theorem burst_range (reviews : List PlaceReview) :
    0 ≤ calc_burst_ratio reviews reviews.length ∧
      calc_burst_ratio reviews reviews.length ≤ 1 := by
  simp only [calc_burst_ratio]
  split_ifs with h1 h2 h3
  · exact ⟨le_refl 0, zero_le_one⟩
  · exact ⟨le_refl 0, zero_le_one⟩
  · exact ⟨le_refl 0, zero_le_one⟩
  · have hlen : ((reviews.map (fun r => r.created_at)).insertionSort
        (· ≤ ·)).length = reviews.length := by
      rw [(List.perm_insertionSort _ _).length_eq, List.length_map]
    have hml := burstLoop_le
      ((reviews.map (fun r => r.created_at)).insertionSort (· ≤ ·)) [] 0
    simp only [List.length_nil, Nat.zero_add, Nat.max_eq_right (Nat.zero_le _),
      hlen] at hml
    have hpos : (0 : ℚ) < reviews.length := by
      exact_mod_cast Nat.pos_of_ne_zero h3
    constructor
    · positivity
    · rw [div_le_one hpos]
      exact_mod_cast hml

theorem rd_term_nonneg (rd : Option ℚ) :
    0 ≤ (match rd with
      | some d => if 0 < d then clamp (d * 15) 0 20 else 0
      | none => (0 : ℚ)) := by
  rcases rd with _ | d
  · exact le_refl 0
  · dsimp only
    split_ifs
    · exact clamp_nonneg _ _
    · exact le_refl 0

theorem ns_term_nonneg (ns : Option ℚ) :
    0 ≤ (match ns with
      | some v => clamp ((1 - v) * 20) 0 15
      | none => (0 : ℚ)) := by
  rcases ns with _ | v
  · exact le_refl 0
  · exact clamp_nonneg _ _

theorem if_five_nonneg (tm : Bool) : 0 ≤ (if tm then (5 : ℚ) else 0) := by
  split_ifs <;> norm_num

theorem if_ten_nonneg (c : Prop) [Decidable c] :
    0 ≤ (if c then (10 : ℚ) else 0) := by
  split_ifs <;> norm_num

theorem sakura_score_range (s b : ℚ) (rd : Option ℚ) (tm : Bool)
    (ns : Option ℚ) (ls : ℚ) (total : ℕ) :
    0 ≤ calc_sakura_score s b rd tm ns ls total ∧
      calc_sakura_score s b rd tm ns ls total ≤ 100 := by
  simp only [calc_sakura_score]
  constructor
  · have hsum : (0:ℚ) ≤ clamp (s * 100) 0 40 + clamp (b * 100) 0 25 +
        (match rd with
          | some d => if 0 < d then clamp (d * 15) 0 20 else 0
          | none => (0:ℚ)) +
        (if tm then (5:ℚ) else 0) +
        (match ns with
          | some v => clamp ((1 - v) * 20) 0 15
          | none => (0:ℚ)) +
        (if 20 ≤ total ∧ ls < 1/10 then (10:ℚ) else 0) := by
      have := clamp_nonneg (s * 100) 40
      have := clamp_nonneg (b * 100) 25
      have := rd_term_nonneg rd
      have := ns_term_nonneg ns
      have := if_five_nonneg tm
      have := if_ten_nonneg (20 ≤ total ∧ ls < 1/10)
      positivity
    exact le_min (by norm_num) (pyRound_nonneg hsum)
  · exact min_le_left _ _

theorem fraud_score_range (fkr ls : ℚ) (total : ℕ) :
    0 ≤ calc_fraud_score fkr ls total ∧ calc_fraud_score fkr ls total ≤ 100 := by
  simp only [calc_fraud_score]
  constructor
  · have hsum : (0:ℚ) ≤ clamp (fkr * 200) 0 90 +
        (if 10 ≤ total ∧ 3/10 ≤ ls then (10:ℚ) else 0) := by
      have := clamp_nonneg (fkr * 200) 90
      have := if_ten_nonneg (10 ≤ total ∧ 3/10 ≤ ls)
      positivity
    exact le_min (by norm_num) (pyRound_nonneg hsum)
  · exact min_le_left _ _

/-- **C6.** For every review list, the four ratio signals `short_5_ratio`,
`burst_7day_ratio`, `low_star_ratio` and `fraud_keyword_ratio` produced by
`analyze_place` are each in `[0, 1]`. -/
theorem ratio_signals_mem_unit (p : PlaceData) (r : AnalyzeRequest) :
    (0 ≤ (analyze_place p r).signals.short_5_ratio ∧
      (analyze_place p r).signals.short_5_ratio ≤ 1) ∧
    (0 ≤ (analyze_place p r).signals.burst_7day_ratio ∧
      (analyze_place p r).signals.burst_7day_ratio ≤ 1) ∧
    (0 ≤ (analyze_place p r).signals.low_star_ratio ∧
      (analyze_place p r).signals.low_star_ratio ≤ 1) ∧
    (0 ≤ (analyze_place p r).signals.fraud_keyword_ratio ∧
      (analyze_place p r).signals.fraud_keyword_ratio ≤ 1) := by
  exact ⟨short5_range p.reviews, burst_range p.reviews,
    low_star_range p.reviews, fraud_ratio_range p.reviews⟩

/-- **C3.** The `sakura_score` and `fraud_score` returned by `analyze_place`
are integers in `[0, 100]`. -/
theorem scores_mem_range (p : PlaceData) (r : AnalyzeRequest) :
    (0 ≤ (analyze_place p r).sakura_score ∧
      (analyze_place p r).sakura_score ≤ 100) ∧
    (0 ≤ (analyze_place p r).fraud_score ∧
      (analyze_place p r).fraud_score ≤ 100) := by
  exact ⟨sakura_score_range _ _ _ _ _ _ _, fraud_score_range _ _ _⟩

/-- **C4.** The risk label is `"high"` when either score is ≥ 70, else
`"medium"` when either is ≥ 40, else `"low"`; and the label in every
`AnalysisResponse` is one of exactly these three strings. -/
theorem risk_label_spec (s f : ℤ) (p : PlaceData) (r : AnalyzeRequest) :
    calc_risk_label s f =
      (if 70 ≤ s ∨ 70 ≤ f then "high"
       else if 40 ≤ s ∨ 40 ≤ f then "medium"
       else "low") ∧
    ((analyze_place p r).risk_label = "low" ∨
      (analyze_place p r).risk_label = "medium" ∨
      (analyze_place p r).risk_label = "high") := by
  constructor
  · rfl
  · show calc_risk_label _ _ = "low" ∨ calc_risk_label _ _ = "medium" ∨
      calc_risk_label _ _ = "high"
    unfold calc_risk_label
    split_ifs <;> simp

theorem firstHit_some {α : Type} (f : ℕ → Option α) :
    ∀ n s x, firstHit f s n = some x →
      ∃ m, m < n ∧ f (s + m) = some x ∧ ∀ m', m' < m → f (s + m') = none := by
  intro n
  induction n with
  | zero => intro s x h; simp [firstHit] at h
  | succ n ih =>
    intro s x h
    rw [firstHit] at h
    cases hf : f s with
    | some y =>
      rw [hf] at h
      refine ⟨0, Nat.succ_pos n, ?_, fun m' hm' => absurd hm' (Nat.not_lt_zero m')⟩
      rw [Nat.add_zero, hf]
      exact h
    | none =>
      rw [hf] at h
      obtain ⟨m, hm, hfm, hmin⟩ := ih (s + 1) x h
      refine ⟨m + 1, by omega, ?_, ?_⟩
      · rw [show s + (m + 1) = s + 1 + m by omega]
        exact hfm
      · intro m' hm'
        cases m' with
        | zero => simpa using hf
        | succ m'' =>
          rw [show s + (m'' + 1) = s + 1 + m'' by omega]
          exact hmin m'' (by omega)

theorem firstHit_none {α : Type} (f : ℕ → Option α) :
    ∀ n s, firstHit f s n = none → ∀ m, m < n → f (s + m) = none := by
  intro n
  induction n with
  | zero => intro s _ m hm; omega
  | succ n ih =>
    intro s h m hm
    rw [firstHit] at h
    cases hf : f s with
    | some y => rw [hf] at h; exact absurd h (by simp)
    | none =>
      rw [hf] at h
      cases m with
      | zero => simpa using hf
      | succ m' =>
        rw [show s + (m' + 1) = s + 1 + m' by omega]
        exact ih (s + 1) h m' (by omega)

theorem bestK_some {α : Type} (f : ℕ → Option α) :
    ∀ K x, bestK f K = some x → ∃ k, 1 ≤ k ∧ k ≤ K ∧ f k = some x := by
  intro K
  induction K with
  | zero => intro x h; simp [bestK] at h
  | succ K ih =>
    intro x h
    rw [bestK] at h
    cases hf : f (K + 1) with
    | some y =>
      rw [hf] at h
      exact ⟨K + 1, by omega, le_refl _, by rw [hf]; exact h⟩
    | none =>
      rw [hf] at h
      obtain ⟨k, h1, h2, h3⟩ := ih x h
      exact ⟨k, h1, by omega, h3⟩

theorem bestK_none {α : Type} (f : ℕ → Option α) :
    ∀ K, bestK f K = none → ∀ k, 1 ≤ k → k ≤ K → f k = none := by
  intro K
  induction K with
  | zero => intro _ k h1 h2; omega
  | succ K ih =>
    intro h k h1 h2
    rw [bestK] at h
    cases hf : f (K + 1) with
    | some y => rw [hf] at h; exact absurd h (by simp)
    | none =>
      rw [hf] at h
      rcases Nat.lt_or_ge k (K + 1) with hk | hk
      · exact ih h k h1 (by omega)
      · rw [show k = K + 1 by omega]
        exact hf

theorem okMatch_iff (a b : List Char) (junk : Char → Bool)
    (alo ahi blo bhi i j k : ℕ) :
    okMatch a b junk alo ahi blo bhi i j k = true ↔
      alo ≤ i ∧ i + k ≤ ahi ∧ blo ≤ j ∧ j + k ≤ bhi ∧
      pySlice a i k = pySlice b j k ∧
      ∀ c ∈ pySlice b j k, junk c = false := by
  simp [okMatch, List.all_eq_true, and_assoc]

theorem findIJ_some (a b : List Char) (junk : Char → Bool)
    (alo ahi blo bhi k i j : ℕ)
    (h : findIJ a b junk alo ahi blo bhi k = some (i, j)) :
    okMatch a b junk alo ahi blo bhi i j k = true ∧
    alo ≤ i ∧ i < ahi ∧ blo ≤ j ∧ j < bhi ∧
    (∀ i', alo ≤ i' → i' < i → ∀ j', blo ≤ j' → j' < bhi →
      okMatch a b junk alo ahi blo bhi i' j' k = false) ∧
    (∀ j', blo ≤ j' → j' < j →
      okMatch a b junk alo ahi blo bhi i j' k = false) := by
  unfold findIJ at h
  obtain ⟨m, hm, hfm, hmin⟩ := firstHit_some _ _ _ _ h
  obtain ⟨mj, hmj, hfmj, hminj⟩ := firstHit_some _ _ _ _ hfm
  have hij : okMatch a b junk alo ahi blo bhi (alo + m) (blo + mj) k = true ∧
      i = alo + m ∧ j = blo + mj := by
    by_cases hok : okMatch a b junk alo ahi blo bhi (alo + m) (blo + mj) k = true
    · rw [if_pos hok] at hfmj
      simp only [Option.some.injEq, Prod.mk.injEq] at hfmj
      exact ⟨hok, hfmj.1.symm, hfmj.2.symm⟩
    · rw [if_neg hok] at hfmj
      exact absurd hfmj (by simp)
  obtain ⟨hok, hi, hj⟩ := hij
  subst hi; subst hj
  refine ⟨hok, by omega, by omega, by omega, by omega, ?_, ?_⟩
  · intro i' hi1 hi2 j' hj1 hj2
    have h0 := hmin (i' - alo) (by omega)
    rw [show alo + (i' - alo) = i' by omega] at h0
    have h1 := firstHit_none _ _ _ h0 (j' - blo) (by omega)
    rw [show blo + (j' - blo) = j' by omega] at h1
    by_cases hok' : okMatch a b junk alo ahi blo bhi i' j' k = true
    · rw [if_pos hok'] at h1; exact absurd h1 (by simp)
    · exact Bool.not_eq_true _ ▸ hok'
  · intro j' hj1 hj2
    have h1 := hminj (j' - blo) (by omega)
    rw [show blo + (j' - blo) = j' by omega] at h1
    by_cases hok' : okMatch a b junk alo ahi blo bhi (alo + m) j' k = true
    · rw [if_pos hok'] at h1; exact absurd h1 (by simp)
    · exact Bool.not_eq_true _ ▸ hok'

theorem extLeft_spec (a b : List Char) (p : Char → Bool) (alo blo : ℕ) :
    ∀ fuel i j k, alo ≤ i → blo ≤ j →
      (extLeft a b p alo blo fuel (i, j, k)).1 +
          (extLeft a b p alo blo fuel (i, j, k)).2.2 = i + k ∧
      (extLeft a b p alo blo fuel (i, j, k)).2.1 +
          (extLeft a b p alo blo fuel (i, j, k)).2.2 = j + k ∧
      alo ≤ (extLeft a b p alo blo fuel (i, j, k)).1 ∧
      blo ≤ (extLeft a b p alo blo fuel (i, j, k)).2.1 ∧
      k ≤ (extLeft a b p alo blo fuel (i, j, k)).2.2 := by
  intro fuel
  induction fuel with
  | zero => intro i j k hi hj; exact ⟨rfl, rfl, hi, hj, le_refl k⟩
  | succ fuel ih =>
    intro i j k hi hj
    rw [extLeft]
    split_ifs with hg
    · simp only [Bool.and_eq_true, decide_eq_true_eq] at hg
      obtain ⟨⟨⟨h1, h2⟩, _⟩, _⟩ := hg
      obtain ⟨e1, e2, e3, e4, e5⟩ := ih (i - 1) (j - 1) (k + 1) (by omega) (by omega)
      exact ⟨by omega, by omega, e3, e4, by omega⟩
    · exact ⟨rfl, rfl, hi, hj, le_refl k⟩

theorem extLeft_diag (a b : List Char) (p : Char → Bool) (alo blo : ℕ) :
    ∀ fuel i k,
      (extLeft a b p alo blo fuel (i, i, k)).2.1 =
        (extLeft a b p alo blo fuel (i, i, k)).1 := by
  intro fuel
  induction fuel with
  | zero => intro i k; rfl
  | succ fuel ih =>
    intro i k
    rw [extLeft]
    split_ifs with hg
    · exact ih (i - 1) (k + 1)
    · rfl

theorem extRight_spec (a b : List Char) (p : Char → Bool) (ahi bhi i j : ℕ) :
    ∀ fuel k,
      k ≤ extRight a b p ahi bhi i j fuel k ∧
      (i + k ≤ ahi → i + extRight a b p ahi bhi i j fuel k ≤ ahi) ∧
      (j + k ≤ bhi → j + extRight a b p ahi bhi i j fuel k ≤ bhi) := by
  intro fuel
  induction fuel with
  | zero => intro k; exact ⟨le_refl k, fun h => h, fun h => h⟩
  | succ fuel ih =>
    intro k
    rw [extRight]
    split_ifs with hg
    · simp only [Bool.and_eq_true, decide_eq_true_eq] at hg
      obtain ⟨⟨⟨h1, h2⟩, _⟩, _⟩ := hg
      obtain ⟨e1, e2, e3⟩ := ih (k + 1)
      exact ⟨by omega, fun _ => e2 (by omega), fun _ => e3 (by omega)⟩
    · exact ⟨le_refl k, fun h => h, fun h => h⟩

theorem findCore_bounds (a b : List Char) (junk : Char → Bool)
    (alo ahi blo bhi : ℕ) (ha : alo ≤ ahi) (hb : blo ≤ bhi) :
    alo ≤ (findCore a b junk alo ahi blo bhi).1 ∧
    (findCore a b junk alo ahi blo bhi).1 +
      (findCore a b junk alo ahi blo bhi).2.2 ≤ ahi ∧
    blo ≤ (findCore a b junk alo ahi blo bhi).2.1 ∧
    (findCore a b junk alo ahi blo bhi).2.1 +
      (findCore a b junk alo ahi blo bhi).2.2 ≤ bhi := by
  unfold findCore
  cases hbk : bestK (fun k =>
      (findIJ a b junk alo ahi blo bhi k).map (fun ij => (ij.1, ij.2, k)))
      (min (ahi - alo) (bhi - blo)) with
  | none =>
    dsimp only
    exact ⟨le_refl alo, by omega, le_refl blo, by omega⟩
  | some r =>
    dsimp only
    obtain ⟨k, hk1, hk2, hk3⟩ := bestK_some _ _ _ hbk
    cases hij : findIJ a b junk alo ahi blo bhi k with
    | none => rw [hij] at hk3; exact absurd hk3 (by simp)
    | some ij =>
      rw [hij] at hk3
      simp only [Option.map_some', Option.some.injEq] at hk3
      obtain ⟨hok, _, _, _, _, _, _⟩ :=
        findIJ_some a b junk alo ahi blo bhi k ij.1 ij.2 (by rw [hij])
      rw [okMatch_iff] at hok
      rw [← hk3]
      exact ⟨hok.1, hok.2.1, hok.2.2.1, hok.2.2.2.1⟩

theorem flm_bounds (a b : List Char) (junk : Char → Bool)
    (alo ahi blo bhi : ℕ) (ha : alo ≤ ahi) (hb : blo ≤ bhi) :
    alo ≤ (flm a b junk alo ahi blo bhi).1 ∧
    (flm a b junk alo ahi blo bhi).1 +
      (flm a b junk alo ahi blo bhi).2.2 ≤ ahi ∧
    blo ≤ (flm a b junk alo ahi blo bhi).2.1 ∧
    (flm a b junk alo ahi blo bhi).2.1 +
      (flm a b junk alo ahi blo bhi).2.2 ≤ bhi := by
  obtain ⟨c1, c2, c3, c4⟩ := findCore_bounds a b junk alo ahi blo bhi ha hb
  simp only [flm]
  set c0 := findCore a b junk alo ahi blo bhi with hc0
  obtain ⟨e1, e2, e3, e4, e5⟩ :=
    extLeft_spec a b (fun ch => !junk ch) alo blo (c0.1 - alo) c0.1 c0.2.1
      c0.2.2 c1 c3
  set r1 := extLeft a b (fun ch => !junk ch) alo blo (c0.1 - alo)
    (c0.1, c0.2.1, c0.2.2) with hr1
  obtain ⟨f1, f2, f3⟩ := extRight_spec a b (fun ch => !junk ch) ahi bhi
    r1.1 r1.2.1 (ahi - (r1.1 + r1.2.2)) r1.2.2
  set k2 := extRight a b (fun ch => !junk ch) ahi bhi r1.1 r1.2.1
    (ahi - (r1.1 + r1.2.2)) r1.2.2 with hk2
  have g2 : r1.1 + k2 ≤ ahi := f2 (by omega)
  have g4 : r1.2.1 + k2 ≤ bhi := f3 (by omega)
  obtain ⟨e1', e2', e3', e4', e5'⟩ :=
    extLeft_spec a b junk alo blo (r1.1 - alo) r1.1 r1.2.1 k2 e3 e4
  set r3 := extLeft a b junk alo blo (r1.1 - alo) (r1.1, r1.2.1, k2) with hr3
  obtain ⟨f1', f2', f3'⟩ := extRight_spec a b junk ahi bhi r3.1 r3.2.1
    (ahi - (r3.1 + r3.2.2)) r3.2.2
  exact ⟨e3', f2' (by omega), e4', f3' (by omega)⟩

theorem matchSumF_le (a b : List Char) (junk : Char → Bool) :
    ∀ fuel alo ahi blo bhi, alo ≤ ahi → blo ≤ bhi →
      matchSumF a b junk fuel alo ahi blo bhi ≤ ahi - alo ∧
      matchSumF a b junk fuel alo ahi blo bhi ≤ bhi - blo := by
  intro fuel
  induction fuel with
  | zero => intro alo ahi blo bhi _ _; simp [matchSumF]
  | succ fuel ih =>
    intro alo ahi blo bhi ha hb
    rw [matchSumF]
    obtain ⟨b1, b2, b3, b4⟩ := flm_bounds a b junk alo ahi blo bhi ha hb
    set r := flm a b junk alo ahi blo bhi with hr
    split_ifs with hk
    · omega
    · obtain ⟨l1, l2⟩ := ih alo r.1 blo r.2.1 (by omega) (by omega)
      obtain ⟨m1, m2⟩ := ih (r.1 + r.2.2) ahi (r.2.1 + r.2.2) bhi
        (by omega) (by omega)
      constructor <;> omega

theorem matchTotal_le (a b : List Char) (junk : Char → Bool) :
    matchTotal a b junk ≤ a.length ∧ matchTotal a b junk ≤ b.length := by
  have := matchSumF_le a b junk (a.length + 1) 0 a.length 0 b.length
    (Nat.zero_le _) (Nat.zero_le _)
  simpa [matchTotal] using this

theorem smRatio_range (a b : List Char) : 0 ≤ smRatio a b ∧ smRatio a b ≤ 1 := by
  unfold smRatio
  split_ifs with h
  · norm_num
  · have hpos : (0 : ℚ) < (a.length : ℚ) + (b.length : ℚ) := by
      have : 0 < a.length + b.length := Nat.pos_of_ne_zero h
      exact_mod_cast this
    obtain ⟨h1, h2⟩ := matchTotal_le a b (popularJunk b)
    constructor
    · positivity
    · rw [div_le_one (by push_cast; exact hpos)]
      push_cast
      have : (matchTotal a b (popularJunk b) : ℚ) ≤ a.length := by exact_mod_cast h1
      have : (matchTotal a b (popularJunk b) : ℚ) ≤ b.length := by exact_mod_cast h2
      linarith

theorem any_congr_mem {α : Type} :
    ∀ (l : List α) (f g : α → Bool), (∀ x ∈ l, f x = g x) → l.any f = l.any g := by
  intro l
  induction l with
  | nil => intro f g _; rfl
  | cons x t ih =>
    intro f g h
    simp only [List.any_cons, h x (by simp),
      ih f g (fun y hy => h y (by simp [hy]))]

theorem calc_name_similarity_mem_unit (g : List Char) (tn : Option (List Char))
    (v : ℚ) (h : calc_name_similarity g tn = some v) : 0 ≤ v ∧ v ≤ 1 := by
  unfold calc_name_similarity at h
  rcases tn with _ | t
  · exact absurd h (by simp)
  · dsimp only at h
    split_ifs at h with h1 h2
    injection h with h
    rw [← h]
    exact smRatio_range _ _

theorem clamp_eq_min {x hi : ℚ} (hx : 0 ≤ x) (hh : 0 ≤ hi) :
    clamp x 0 hi = min x hi := by
  unfold clamp
  rw [max_eq_right (le_min hh hx), min_comm]

theorem intClamp_of_nonneg {n : ℤ} (h : 0 ≤ n) : intClamp n = min 100 n := by
  unfold intClamp
  rw [max_eq_right h]

theorem calc_sakura_eq_spec (s b : ℚ) (rd : Option ℚ) (tm : Bool)
    (ns : Option ℚ) (ls : ℚ) (total : ℕ) (hs : 0 ≤ s) (hb : 0 ≤ b)
    (hns : ∀ v, ns = some v → v ≤ 1) :
    calc_sakura_score s b rd tm ns ls total =
      intClamp (pyRound (sakuraSpecSum s b rd tm ns ls total)) := by
  have h40 : clamp (s * 100) 0 40 = min (s * 100) 40 :=
    clamp_eq_min (mul_nonneg hs (by norm_num)) (by norm_num)
  have h25 : clamp (b * 100) 0 25 = min (b * 100) 25 :=
    clamp_eq_min (mul_nonneg hb (by norm_num)) (by norm_num)
  have t1n : (0:ℚ) ≤ min (s * 100) 40 :=
    le_min (mul_nonneg hs (by norm_num)) (by norm_num)
  have t2n : (0:ℚ) ≤ min (b * 100) 25 :=
    le_min (mul_nonneg hb (by norm_num)) (by norm_num)
  have t4n := if_five_nonneg tm
  have t6n := if_ten_nonneg (20 ≤ total ∧ ls < 1/10)
  rcases rd with _ | d <;> rcases ns with _ | v <;>
    simp only [calc_sakura_score, sakuraSpecSum] <;> rw [h40, h25]
  · exact (intClamp_of_nonneg (pyRound_nonneg (add_nonneg (add_nonneg
      (add_nonneg (add_nonneg (add_nonneg t1n t2n) (le_refl (0:ℚ))) t4n)
      (le_refl (0:ℚ))) t6n))).symm ▸ rfl
  · have hv := hns v rfl
    have h15 : clamp ((1 - v) * 20) 0 15 = min ((1 - v) * 20) 15 :=
      clamp_eq_min (mul_nonneg (by linarith) (by norm_num)) (by norm_num)
    have t5n : (0:ℚ) ≤ min ((1 - v) * 20) 15 :=
      le_min (mul_nonneg (by linarith) (by norm_num)) (by norm_num)
    rw [h15, intClamp_of_nonneg (pyRound_nonneg (add_nonneg (add_nonneg
      (add_nonneg (add_nonneg (add_nonneg t1n t2n) (le_refl (0:ℚ))) t4n)
      t5n) t6n))]
  · by_cases hd : 0 < d
    · have h20 : clamp (d * 15) 0 20 = min (d * 15) 20 :=
        clamp_eq_min (mul_nonneg hd.le (by norm_num)) (by norm_num)
      have t3n : (0:ℚ) ≤ min (d * 15) 20 :=
        le_min (mul_nonneg hd.le (by norm_num)) (by norm_num)
      simp only [if_pos hd]
      rw [h20, intClamp_of_nonneg (pyRound_nonneg (add_nonneg (add_nonneg
        (add_nonneg (add_nonneg (add_nonneg t1n t2n) t3n) t4n)
        (le_refl (0:ℚ))) t6n))]
    · simp only [if_neg hd]
      rw [intClamp_of_nonneg (pyRound_nonneg (add_nonneg (add_nonneg
        (add_nonneg (add_nonneg (add_nonneg t1n t2n) (le_refl (0:ℚ))) t4n)
        (le_refl (0:ℚ))) t6n))]
  · have hv := hns v rfl
    have h15 : clamp ((1 - v) * 20) 0 15 = min ((1 - v) * 20) 15 :=
      clamp_eq_min (mul_nonneg (by linarith) (by norm_num)) (by norm_num)
    have t5n : (0:ℚ) ≤ min ((1 - v) * 20) 15 :=
      le_min (mul_nonneg (by linarith) (by norm_num)) (by norm_num)
    rw [h15]
    by_cases hd : 0 < d
    · have h20 : clamp (d * 15) 0 20 = min (d * 15) 20 :=
        clamp_eq_min (mul_nonneg hd.le (by norm_num)) (by norm_num)
      have t3n : (0:ℚ) ≤ min (d * 15) 20 :=
        le_min (mul_nonneg hd.le (by norm_num)) (by norm_num)
      simp only [if_pos hd]
      rw [h20, intClamp_of_nonneg (pyRound_nonneg (add_nonneg (add_nonneg
        (add_nonneg (add_nonneg (add_nonneg t1n t2n) t3n) t4n) t5n) t6n))]
    · simp only [if_neg hd]
      rw [intClamp_of_nonneg (pyRound_nonneg (add_nonneg (add_nonneg
        (add_nonneg (add_nonneg (add_nonneg t1n t2n) (le_refl (0:ℚ))) t4n)
        t5n) t6n))]

theorem calc_fraud_eq_spec (fkr ls : ℚ) (total : ℕ) (hf : 0 ≤ fkr) :
    calc_fraud_score fkr ls total =
      intClamp (pyRound (fraudSpecSum fkr ls total)) := by
  have h90 : clamp (fkr * 200) 0 90 = min (fkr * 200) 90 :=
    clamp_eq_min (mul_nonneg hf (by norm_num)) (by norm_num)
  have t1n : (0:ℚ) ≤ min (fkr * 200) 90 :=
    le_min (mul_nonneg hf (by norm_num)) (by norm_num)
  have t2n := if_ten_nonneg (10 ≤ total ∧ 3/10 ≤ ls)
  simp only [calc_fraud_score, fraudSpecSum]
  rw [h90, intClamp_of_nonneg (pyRound_nonneg (by positivity))]

/-- **C1.** The `sakura_score` of `analyze_place` equals
round-then-clamp-to-`[0,100]` of the spec's term sum
`min(short_5_ratio*100, 40) + min(burst_7day_ratio*100, 25)
+ (min(rating_diff*15, 20) if rating_diff present and > 0)
+ (5 if tabelog_missing) + (min((1-name_similarity)*20, 15) if present)
+ (10 if total_reviews ≥ 20 and low_star_ratio < 0.1)`, each term capped
individually and only the grand total clamped to `[0,100]`. -/
theorem sakura_score_formula (p : PlaceData) (r : AnalyzeRequest) :
    (analyze_place p r).sakura_score =
      intClamp (pyRound (sakuraSpecSum
        (analyze_place p r).signals.short_5_ratio
        (analyze_place p r).signals.burst_7day_ratio
        (analyze_place p r).signals.rating_diff_google_minus_tabelog
        (analyze_place p r).signals.tabelog_missing
        (analyze_place p r).signals.name_similarity_google_vs_tabelog
        (analyze_place p r).signals.low_star_ratio
        (analyze_place p r).signals.total_reviews)) := by
  show calc_sakura_score
      (calc_short_5_ratio p.reviews p.reviews.length)
      (calc_burst_ratio p.reviews p.reviews.length)
      (calc_rating_diff p.rating r.tabelog_rating)
      (r.tabelog_rating == none && r.tabelog_review_count == none)
      (calc_name_similarity p.name r.tabelog_name)
      (calc_low_star_ratio p.reviews p.reviews.length)
      p.reviews.length = _
  exact calc_sakura_eq_spec _ _ _ _ _ _ _
    (short5_range p.reviews).1 (burst_range p.reviews).1
    (fun v hv => (calc_name_similarity_mem_unit p.name r.tabelog_name v hv).2)

theorem fraud_keywords_lower_fixed :
    FRAUD_KEYWORDS.map pyLower = FRAUD_KEYWORDS := by
  decide

theorem reviewHasKeyword_eq (rv : PlaceReview) :
    ∀ kw ∈ FRAUD_KEYWORDS,
      reviewHasKeyword rv kw = pyIn kw (pyLower (normalize_text rv.text)) := by
  have hfix : ∀ kw ∈ FRAUD_KEYWORDS, pyLower kw = kw := by decide
  intro kw hkw
  unfold reviewHasKeyword
  rw [hfix kw hkw]

theorem fraud_ratio_eq_spec (reviews : List PlaceReview) :
    calc_fraud_keyword_ratio reviews reviews.length =
      (if reviews.length = 0 then 0
       else (reviews.countP (fun rv => FRAUD_KEYWORDS.any
          (fun kw => pyIn kw (pyLower (normalize_text rv.text)))) : ℚ)
         / reviews.length) := by
  unfold calc_fraud_keyword_ratio
  split_ifs with h
  · rfl
  · have hcnt : reviews.countP (fun rv => FRAUD_KEYWORDS.any (reviewHasKeyword rv))
        = reviews.countP (fun rv => FRAUD_KEYWORDS.any
            (fun kw => pyIn kw (pyLower (normalize_text rv.text)))) := by
      refine List.countP_congr (fun rv _ => ?_)
      rw [any_congr_mem FRAUD_KEYWORDS _ _ (reviewHasKeyword_eq rv)]
    rw [hcnt]

/-- **C2.** The `fraud_score` of `analyze_place` equals
round-then-clamp-to-`[0,100]` of `min(fraud_keyword_ratio*200, 90)
+ (10 if total_reviews ≥ 10 and low_star_ratio ≥ 0.3)`, and
`fraud_keyword_ratio` is the number of reviews whose normalized lowercased
text contains at least one fixed fraud keyword as a substring, divided by
the total review count (`0` when there are no reviews). -/
theorem fraud_score_formula (p : PlaceData) (r : AnalyzeRequest) :
    (analyze_place p r).fraud_score =
      intClamp (pyRound (fraudSpecSum
        (analyze_place p r).signals.fraud_keyword_ratio
        (analyze_place p r).signals.low_star_ratio
        (analyze_place p r).signals.total_reviews)) ∧
    (analyze_place p r).signals.fraud_keyword_ratio =
      (if p.reviews.length = 0 then 0
       else (p.reviews.countP (fun rv => FRAUD_KEYWORDS.any
          (fun kw => pyIn kw (pyLower (normalize_text rv.text)))) : ℚ)
         / p.reviews.length) := by
  constructor
  · show calc_fraud_score
        (calc_fraud_keyword_ratio p.reviews p.reviews.length)
        (calc_low_star_ratio p.reviews p.reviews.length)
        p.reviews.length = _
    exact calc_fraud_eq_spec _ _ _ (fraud_ratio_range p.reviews).1
  · show calc_fraud_keyword_ratio p.reviews p.reviews.length = _
    exact fraud_ratio_eq_spec p.reviews

set_option maxRecDepth 10000 in
set_option maxHeartbeats 1000000 in
/-- **C8.** On an empty review list `analyze_place` reports
`total_reviews = 0` and all four ratio signals `0`; when additionally all
competing-source fields of the request are absent, the risk label is
`"low"`. -/
theorem empty_reviews_response (p : PlaceData) (r : AnalyzeRequest)
    (hrev : p.reviews = []) :
    (analyze_place p r).signals.total_reviews = 0 ∧
    (analyze_place p r).signals.short_5_ratio = 0 ∧
    (analyze_place p r).signals.burst_7day_ratio = 0 ∧
    (analyze_place p r).signals.low_star_ratio = 0 ∧
    (analyze_place p r).signals.fraud_keyword_ratio = 0 ∧
    (r.tabelog_rating = none → r.tabelog_review_count = none →
      r.tabelog_name = none → (analyze_place p r).risk_label = "low") := by
  rcases p with ⟨pid, nm, prat, purt, prev⟩
  rcases r with ⟨url, trat, tcnt, tnm⟩
  dsimp only at hrev
  subst hrev
  refine ⟨rfl, rfl, rfl, rfl, rfl, ?_⟩
  intro h2 h3 h4
  dsimp only at h2 h3 h4
  subst h2; subst h3; subst h4
  have hrd : calc_rating_diff prat none = none := by cases prat <;> rfl
  show calc_risk_label
      (calc_sakura_score (calc_short_5_ratio [] ([] : List PlaceReview).length)
        (calc_burst_ratio [] ([] : List PlaceReview).length)
        (calc_rating_diff prat none)
        ((none : Option ℚ) == none && (none : Option ℤ) == none)
        (calc_name_similarity nm none)
        (calc_low_star_ratio [] ([] : List PlaceReview).length)
        ([] : List PlaceReview).length)
      (calc_fraud_score
        (calc_fraud_keyword_ratio [] ([] : List PlaceReview).length)
        (calc_low_star_ratio [] ([] : List PlaceReview).length)
        ([] : List PlaceReview).length) = "low"
  rw [hrd, show calc_name_similarity nm none = none from rfl,
    show calc_short_5_ratio [] ([] : List PlaceReview).length = 0 from rfl,
    show calc_burst_ratio [] ([] : List PlaceReview).length = 0 from rfl,
    show calc_low_star_ratio [] ([] : List PlaceReview).length = 0 from rfl,
    show calc_fraud_keyword_ratio [] ([] : List PlaceReview).length = 0 from rfl,
    show ((none : Option ℚ) == none && (none : Option ℤ) == none) = true
      from rfl]
  have hsak : calc_sakura_score 0 0 none true none 0
      ([] : List PlaceReview).length = 5 := by
    simp only [List.length_nil]
    unfold calc_sakura_score
    norm_num [clamp, pyRound]
  have hfrd : calc_fraud_score 0 0 ([] : List PlaceReview).length = 0 := by
    simp only [List.length_nil]
    unfold calc_fraud_score
    norm_num [clamp, pyRound]
  rw [hsak, hfrd]
  decide

/-- **C10.** The `fraud_keywords` list of the response is non-empty iff
`fraud_keyword_ratio > 0`; every entry's keyword belongs to the fixed
11-keyword list, and every entry's count is between `1` and
`total_reviews`. -/
theorem fraud_keywords_entries (p : PlaceData) (r : AnalyzeRequest) :
    ((analyze_place p r).fraud_keywords ≠ [] ↔
      0 < (analyze_place p r).signals.fraud_keyword_ratio) ∧
    (∀ e ∈ (analyze_place p r).fraud_keywords,
      e.keyword ∈ FRAUD_KEYWORDS ∧ 1 ≤ e.count ∧
        e.count ≤ (analyze_place p r).signals.total_reviews) := by
  have hmem : ∀ e ∈ fraudKeywordList p.reviews,
      e.keyword ∈ FRAUD_KEYWORDS ∧ 1 ≤ e.count ∧
        e.count ≤ p.reviews.length := by
    intro e he
    unfold fraudKeywordList at he
    obtain ⟨kw, hkw, hf⟩ := List.mem_filterMap.mp he
    by_cases hc : 0 < fraudKeywordCount p.reviews kw
    · rw [if_pos hc] at hf
      injection hf with hf
      subst hf
      exact ⟨hkw, hc, List.countP_le_length _⟩
    · rw [if_neg hc] at hf
      exact absurd hf (by simp)
  have hiff : fraudKeywordList p.reviews ≠ [] ↔
      0 < calc_fraud_keyword_ratio p.reviews p.reviews.length := by
    have hlist : fraudKeywordList p.reviews ≠ [] ↔
        ∃ kw ∈ FRAUD_KEYWORDS, 0 < fraudKeywordCount p.reviews kw := by
      unfold fraudKeywordList
      rw [Ne, List.filterMap_eq_nil_iff]
      constructor
      · intro h
        by_contra hno
        push_neg at hno
        exact h (fun kw hkw => by
          rw [if_neg (fun hc => absurd hc (by have := hno kw hkw; omega))])
      · rintro ⟨kw, hkw, hc⟩ hall
        have := hall kw hkw
        rw [if_pos hc] at this
        exact absurd this (by simp)
    have hswap : (∃ kw ∈ FRAUD_KEYWORDS, 0 < fraudKeywordCount p.reviews kw) ↔
        0 < p.reviews.countP
          (fun rv => FRAUD_KEYWORDS.any (reviewHasKeyword rv)) := by
      unfold fraudKeywordCount
      simp only [List.countP_pos_iff, List.any_eq_true]
      constructor
      · rintro ⟨kw, hkw, rv, hrv, hh⟩
        exact ⟨rv, hrv, kw, hkw, hh⟩
      · rintro ⟨rv, hrv, kw, hkw, hh⟩
        exact ⟨kw, hkw, rv, hrv, hh⟩
    rw [hlist, hswap]
    unfold calc_fraud_keyword_ratio
    have hle := List.countP_le_length
      (fun rv => FRAUD_KEYWORDS.any (reviewHasKeyword rv)) (l := p.reviews)
    split_ifs with h0
    · constructor
      · intro hcp
        exact absurd hcp (by omega)
      · intro hq
        exact absurd hq (by norm_num)
    · have hpos : (0 : ℚ) < (p.reviews.length : ℚ) := by
        exact_mod_cast Nat.pos_of_ne_zero h0
      constructor
      · intro hc
        exact div_pos (by exact_mod_cast hc) hpos
      · intro hc
        by_contra hz
        push_neg at hz
        have h00 : p.reviews.countP
            (fun rv => FRAUD_KEYWORDS.any (reviewHasKeyword rv)) = 0 := by
          omega
        rw [h00] at hc
        norm_num at hc
  exact ⟨hiff, hmem⟩

theorem empty_reviews_response_witness :
    (PlaceData.mk [] [] none none []).reviews = [] ∧
    (analyze_place (PlaceData.mk [] [] none none [])
      (AnalyzeRequest.mk [] none none none)).signals.total_reviews = 0 ∧
    (analyze_place (PlaceData.mk [] [] none none [])
      (AnalyzeRequest.mk [] none none none)).risk_label = "low" := by
  have h := empty_reviews_response (PlaceData.mk [] [] none none [])
    (AnalyzeRequest.mk [] none none none) rfl
  exact ⟨rfl, h.1, h.2.2.2.2.2 rfl rfl rfl⟩

theorem fraud_keywords_entries_witness :
    FraudKeywordCount.mk "詐欺".toList 1 ∈
      (analyze_place
        (PlaceData.mk [] [] none none [PlaceReview.mk 1 "詐欺だ".toList 0])
        (AnalyzeRequest.mk [] none none none)).fraud_keywords ∧
    (FraudKeywordCount.mk "詐欺".toList 1).keyword ∈ FRAUD_KEYWORDS ∧
    1 ≤ (FraudKeywordCount.mk "詐欺".toList 1).count ∧
    (FraudKeywordCount.mk "詐欺".toList 1).count ≤
      (analyze_place
        (PlaceData.mk [] [] none none [PlaceReview.mk 1 "詐欺だ".toList 0])
        (AnalyzeRequest.mk [] none none none)).signals.total_reviews := by
  refine ⟨by decide, ?_⟩
  exact (fraud_keywords_entries
    (PlaceData.mk [] [] none none [PlaceReview.mk 1 "詐欺だ".toList 0])
    (AnalyzeRequest.mk [] none none none)).2 _ (by decide)

theorem map_id_of_mem {f : Char → Char} :
    ∀ l : List Char, (∀ x ∈ l, f x = x) → l.map f = l := by
  intro l
  induction l with
  | nil => intro _; rfl
  | cons a t ih =>
    intro h
    simp only [List.map_cons, h a (by simp), ih (fun x hx => h x (by simp [hx]))]

theorem nfkcChar_idem (c : Char) : nfkcChar (nfkcChar c) = nfkcChar c := by
  by_cases h1 : c = '　'
  · rw [h1]; decide
  by_cases h2 : c = '（'
  · rw [h2]; decide
  by_cases h3 : c = '）'
  · rw [h3]; decide
  by_cases h4 : c = '！'
  · rw [h4]; decide
  by_cases h5 : c = '？'
  · rw [h5]; decide
  by_cases h6 : c = '０'
  · rw [h6]; decide
  by_cases h7 : c = '１'
  · rw [h7]; decide
  by_cases h8 : c = '５'
  · rw [h8]; decide
  by_cases h9 : c = 'Ａ'
  · rw [h9]; decide
  by_cases h10 : c = 'ａ'
  · rw [h10]; decide
  by_cases h11 : c = '／'
  · rw [h11]; decide
  by_cases h12 : c = '．'
  · rw [h12]; decide
  have hc : nfkcChar c = c := by
    unfold nfkcChar
    rw [if_neg h1, if_neg h2, if_neg h3, if_neg h4, if_neg h5, if_neg h6,
      if_neg h7, if_neg h8, if_neg h9, if_neg h10, if_neg h11, if_neg h12]
  rw [hc, hc]

theorem mem_of_mem_pyStrip {x : Char} {l : List Char} (h : x ∈ pyStrip l) :
    x ∈ l := by
  unfold pyStrip at h
  rw [List.mem_reverse] at h
  have h2 := (List.dropWhile_sublist isPyWs
    (l := (l.dropWhile isPyWs).reverse)).subset h
  rw [List.mem_reverse] at h2
  exact (List.dropWhile_sublist isPyWs (l := l)).subset h2

theorem nfkcChar_of_mem_nfkc {x : Char} {l : List Char} (h : x ∈ nfkc l) :
    nfkcChar x = x := by
  unfold nfkc at h
  obtain ⟨y, _, hxy⟩ := List.mem_map.mp h
  rw [← hxy]
  exact nfkcChar_idem y

theorem dropWhile_idem (p : Char → Bool) :
    ∀ l : List Char, (l.dropWhile p).dropWhile p = l.dropWhile p := by
  intro l
  induction l with
  | nil => rfl
  | cons a t ih =>
    rw [List.dropWhile_cons]
    split_ifs with ha
    · exact ih
    · rw [List.dropWhile_cons, if_neg ha]

theorem pyStripBack_cons (a : Char) (t : List Char) :
    pyStripBack (a :: t) =
      (if pyStripBack t = [] then (if isPyWs a then [] else [a])
       else a :: pyStripBack t) := by
  unfold pyStripBack
  rw [List.reverse_cons, List.dropWhile_append]
  by_cases hB : (t.reverse.dropWhile isPyWs).reverse = []
  · have hB' : t.reverse.dropWhile isPyWs = [] := by
      simpa using congrArg List.reverse hB
    rw [if_pos hB, hB']
    simp only [List.isEmpty_nil, if_true, List.dropWhile_cons,
      List.dropWhile_nil]
    split_ifs with ha <;> rfl
  · have hB' : ¬(t.reverse.dropWhile isPyWs).isEmpty = true := by
      rw [List.isEmpty_iff]
      intro hh
      exact hB (by rw [hh]; rfl)
    rw [if_neg hB, if_neg hB']
    rw [List.reverse_append]
    rfl

theorem dropWhile_pyStripBack_comm :
    ∀ x : List Char,
      (pyStripBack x).dropWhile isPyWs = pyStripBack (x.dropWhile isPyWs) := by
  intro x
  induction x with
  | nil => rfl
  | cons a t ih =>
    by_cases ha : isPyWs a = true
    · rw [show (a :: t).dropWhile isPyWs = t.dropWhile isPyWs by
        rw [List.dropWhile_cons, if_pos ha]]
      rw [← ih, pyStripBack_cons]
      by_cases hB : pyStripBack t = []
      · rw [if_pos hB, if_pos ha, hB]
      · rw [if_neg hB, List.dropWhile_cons, if_pos ha]
    · rw [show (a :: t).dropWhile isPyWs = a :: t by
        rw [List.dropWhile_cons, if_neg ha]]
      rw [pyStripBack_cons]
      by_cases hB : pyStripBack t = []
      · rw [if_pos hB, if_neg ha, List.dropWhile_cons, if_neg ha]
      · rw [if_neg hB, List.dropWhile_cons, if_neg ha]

theorem pyStripBack_idem (l : List Char) :
    pyStripBack (pyStripBack l) = pyStripBack l := by
  unfold pyStripBack
  rw [List.reverse_reverse, dropWhile_idem]

theorem pyStrip_idem (l : List Char) : pyStrip (pyStrip l) = pyStrip l := by
  have hview : ∀ y : List Char, pyStrip y = pyStripBack (y.dropWhile isPyWs) :=
    fun y => rfl
  rw [hview, hview, dropWhile_pyStripBack_comm, dropWhile_idem,
    pyStripBack_idem]

/-- **C9.** The text normalizer is idempotent:
`normalize(normalize(s)) = normalize(s)` (NFKC fold followed by
whitespace strip). -/
theorem normalize_text_idem (s : List Char) :
    normalize_text (normalize_text s) = normalize_text s := by
  show pyStrip (nfkc (pyStrip (nfkc s))) = pyStrip (nfkc s)
  have hfix : nfkc (pyStrip (nfkc s)) = pyStrip (nfkc s) := by
    unfold nfkc
    exact map_id_of_mem _ (fun x hx =>
      nfkcChar_of_mem_nfkc (mem_of_mem_pyStrip hx))
  rw [hfix, pyStrip_idem]

theorem le_foldr_max : ∀ (l : List ℕ) (x : ℕ), x ∈ l → x ≤ l.foldr max 0 := by
  intro l
  induction l with
  | nil => intro x hx; simp at hx
  | cons a t ih =>
    intro x hx
    rcases List.mem_cons.mp hx with h | h
    · subst h; exact le_max_left _ _
    · exact le_trans (ih x h) (le_max_right _ _)

theorem foldr_max_le : ∀ (l : List ℕ) (N : ℕ), (∀ x ∈ l, x ≤ N) →
    l.foldr max 0 ≤ N := by
  intro l
  induction l with
  | nil => intro N _; exact Nat.zero_le N
  | cons a t ih =>
    intro N h
    exact max_le (h a (by simp)) (ih N (fun x hx => h x (by simp [hx])))

theorem sorted_dropWhile_eq_filter (c : ℤ) :
    ∀ l : List ℤ, List.Sorted (· ≤ ·) l →
      l.dropWhile (fun x => decide (x < c)) =
        l.filter (fun x => decide (c ≤ x)) := by
  intro l
  induction l with
  | nil => intro _; rfl
  | cons a t ih =>
    intro hs
    obtain ⟨hall, ht⟩ := List.sorted_cons.mp hs
    rw [List.dropWhile_cons, List.filter_cons]
    by_cases hac : a < c
    · rw [if_pos (by simpa using hac), if_neg (by simpa using not_le.mpr hac)]
      exact ih ht
    · rw [if_neg (by simpa using hac), if_pos (by simpa using not_lt.mp hac)]
      have : t.filter (fun x => decide (c ≤ x)) = t := by
        refine List.filter_eq_self.mpr (fun x hx => ?_)
        simpa using le_trans (not_lt.mp hac) (hall x hx)
      rw [this]

theorem sorted_le_getLast :
    ∀ (l : List ℤ) (hl : l ≠ []), List.Sorted (· ≤ ·) l →
      ∀ x ∈ l, x ≤ l.getLast hl := by
  intro l
  induction l with
  | nil => intro hl; exact absurd rfl hl
  | cons a t ih =>
    intro _ hs x hx
    obtain ⟨hall, ht⟩ := List.sorted_cons.mp hs
    rcases List.mem_cons.mp hx with h | h
    · subst h
      cases t with
      | nil => simp [List.getLast]
      | cons b u =>
        rw [List.getLast_cons (by simp)]
        exact le_trans (hall b (by simp)) (ih (by simp) ht b (by simp))
    · cases t with
      | nil => simp at h
      | cons b u =>
        rw [List.getLast_cons (by simp)]
        exact ih (by simp) ht x h

theorem sorted_filter_decomp (c : ℤ) :
    ∀ l : List ℤ, List.Sorted (· ≤ ·) l →
      l = l.filter (fun x => decide (x ≤ c)) ++
        l.filter (fun x => !decide (x ≤ c)) := by
  intro l
  induction l with
  | nil => intro _; rfl
  | cons a t ih =>
    intro hs
    obtain ⟨hall, ht⟩ := List.sorted_cons.mp hs
    rw [List.filter_cons, List.filter_cons]
    by_cases hac : a ≤ c
    · rw [if_pos (by simpa using hac), if_neg (by simpa using hac)]
      rw [List.cons_append]
      exact congrArg (a :: ·) (ih ht)
    · rw [if_neg (by simpa using hac), if_pos (by simpa using hac)]
      have h1 : t.filter (fun x => decide (x ≤ c)) = [] := by
        refine List.filter_eq_nil_iff.mpr (fun x hx => ?_)
        have := lt_of_lt_of_le (not_le.mp hac) (hall x hx)
        simp only [decide_eq_true_eq]
        omega
      have h2 : t.filter (fun x => !decide (x ≤ c)) = t := by
        refine List.filter_eq_self.mpr (fun x hx => ?_)
        have := lt_of_lt_of_le (not_le.mp hac) (hall x hx)
        simp only [Bool.not_eq_true', decide_eq_false_iff_not]
        omega
      rw [h1, h2]
      rfl

theorem stepWindows_mem_decomp :
    ∀ (todo done : List ℤ) (e : ℕ), e ∈ stepWindows todo done →
      ∃ Q ts S, todo = Q ++ ts :: S ∧
        e = (done ++ Q ++ [ts]).countP
          (fun x => decide (ts - sevenDays ≤ x)) := by
  intro todo
  induction todo with
  | nil => intro done e he; simp [stepWindows] at he
  | cons ts rest ih =>
    intro done e he
    rw [stepWindows] at he
    rcases List.mem_cons.mp he with h | h
    · exact ⟨[], ts, rest, by simp, by simpa using h⟩
    · obtain ⟨Q', ts', S', hd, he'⟩ := ih (done ++ [ts]) e h
      refine ⟨ts :: Q', ts', S', by simp [hd], ?_⟩
      rw [he']
      congr 1
      simp

theorem stepWindows_decomp_mem :
    ∀ (Q : List ℤ) (todo done : List ℤ) (ts : ℤ) (S : List ℤ),
      todo = Q ++ ts :: S →
      ((done ++ Q ++ [ts]).countP (fun x => decide (ts - sevenDays ≤ x))) ∈
        stepWindows todo done := by
  intro Q
  induction Q with
  | nil =>
    intro todo done ts S hd
    subst hd
    simp only [List.nil_append, List.append_nil]
    rw [stepWindows]
    exact List.mem_cons_self _ _
  | cons q Q' ih =>
    intro todo done ts S hd
    subst hd
    rw [List.cons_append, stepWindows]
    refine List.mem_cons_of_mem _ ?_
    have := ih (Q' ++ ts :: S) (done ++ [q]) ts S rfl
    have harr : done ++ [q] ++ Q' ++ [ts] = done ++ (q :: Q') ++ [ts] := by
      simp
    rw [harr] at this
    exact this

theorem burstLoop_go :
    ∀ (todo done : List ℤ) (c : ℤ) (m : ℕ),
      List.Sorted (· ≤ ·) (done ++ todo) →
      (∀ ts ∈ todo, c ≤ ts - sevenDays) →
      burstLoop todo (done.filter (fun x => decide (c ≤ x))) m =
        max m ((stepWindows todo done).foldr max 0) := by
  intro todo
  induction todo with
  | nil =>
    intro done c m _ _
    simp [burstLoop, stepWindows]
  | cons ts rest ih =>
    intro done c m hsort hcut
    have hsort' : List.Sorted (· ≤ ·) ((done ++ [ts]) ++ rest) := by
      rw [List.append_assoc, List.singleton_append]
      exact hsort
    have hdone_sorted : List.Sorted (· ≤ ·) done :=
      (List.pairwise_append.mp hsort).1
    have hcross := (List.pairwise_append.mp hsort).2.2
    have hts_rest : List.Sorted (· ≤ ·) (ts :: rest) :=
      (List.pairwise_append.mp hsort).2.1
    have hts_le : ∀ y ∈ rest, ts ≤ y := (List.sorted_cons.mp hts_rest).1
    rw [burstLoop]
    have hW_sorted : List.Sorted (· ≤ ·)
        (done.filter (fun x => decide (c ≤ x)) ++ [ts]) := by
      refine List.pairwise_append.mpr
        ⟨hdone_sorted.filter _, List.sorted_singleton ts, ?_⟩
      intro x hx y hy
      rw [List.mem_singleton] at hy
      rw [hy]
      exact hcross x (List.mem_of_mem_filter hx) ts (by simp)
    have hstep : ((done.filter (fun x => decide (c ≤ x)) ++ [ts]).dropWhile
        (fun x => decide (x < ts - sevenDays))) =
        (done ++ [ts]).filter (fun x => decide (ts - sevenDays ≤ x)) := by
      rw [sorted_dropWhile_eq_filter _ _ hW_sorted]
      rw [List.filter_append, List.filter_append]
      congr 1
      · rw [List.filter_filter]
        refine List.filter_congr (fun x hx => ?_)
        have hc := hcut ts (by simp)
        by_cases hcx : ts - sevenDays ≤ x
        · simp [hcx, show c ≤ x by omega]
        · simp [hcx]
    rw [hstep]
    have hlen : ((done ++ [ts]).filter
        (fun x => decide (ts - sevenDays ≤ x))).length =
        (done ++ [ts]).countP (fun x => decide (ts - sevenDays ≤ x)) := by
      rw [List.countP_eq_length_filter]
    have hrec := ih (done ++ [ts]) (ts - sevenDays)
      (max m ((done ++ [ts]).filter
        (fun x => decide (ts - sevenDays ≤ x))).length)
      hsort' (fun y hy => by have := hts_le y hy; omega)
    rw [hrec, stepWindows]
    rw [List.foldr_cons, hlen]
    rw [← Nat.max_assoc]

theorem stepWindows_foldr_eq_windowMax (L : List ℤ)
    (hs : List.Sorted (· ≤ ·) L) :
    (stepWindows L []).foldr max 0 = windowMax L := by
  apply le_antisymm
  · apply foldr_max_le
    intro e he
    obtain ⟨Q, ts, S, hd, heq⟩ := stepWindows_mem_decomp L [] e he
    have hts_mem : ts ∈ L := by
      rw [hd]
      exact List.mem_append.mpr (Or.inr (List.mem_cons_self _ _))
    have hsplit : L = (Q ++ [ts]) ++ S := by
      rw [hd]
      simp
    have h1 : e ≤ windowCount L ts := by
      rw [heq]
      simp only [List.nil_append]
      have hall : ∀ x ∈ Q ++ [ts], x ≤ ts := by
        intro x hx
        rcases List.mem_append.mp hx with hxQ | hxts
        · have hsQ : List.Sorted (· ≤ ·) (Q ++ ts :: S) := by rw [← hd]; exact hs
          exact (List.pairwise_append.mp hsQ).2.2 x hxQ ts
            (List.mem_cons_self _ _)
        · rw [List.mem_singleton] at hxts
          rw [hxts]
      have hcong : (Q ++ [ts]).countP (fun x => decide (ts - sevenDays ≤ x)) =
          (Q ++ [ts]).countP
            (fun x => decide (ts - sevenDays ≤ x) && decide (x ≤ ts)) := by
        refine List.countP_congr (fun x hx => ?_)
        simp [hall x hx]
      rw [hcong]
      have hsub : List.Sublist (Q ++ [ts]) L := by
        rw [hsplit]
        exact List.sublist_append_left _ _
      exact hsub.countP_le _
    have h2 : windowCount L ts ≤ windowMax L :=
      le_foldr_max _ _ (List.mem_map_of_mem _ hts_mem)
    exact le_trans h1 h2
  · apply foldr_max_le
    intro e he
    obtain ⟨t, ht_mem, heq⟩ := List.mem_map.mp he
    have htP : t ∈ L.filter (fun x => decide (x ≤ t)) :=
      List.mem_filter.mpr ⟨ht_mem, by simp⟩
    have hPne : L.filter (fun x => decide (x ≤ t)) ≠ [] := by
      intro hnil
      rw [hnil] at htP
      simp at htP
    have hPs : List.Sorted (· ≤ ·) (L.filter (fun x => decide (x ≤ t))) :=
      hs.filter _
    have hu : (L.filter (fun x => decide (x ≤ t))).getLast hPne = t := by
      refine le_antisymm ?_ (sorted_le_getLast _ hPne hPs t htP)
      have := List.getLast_mem hPne
      have h2 := List.mem_filter.mp this
      simpa using h2.2
    have hP2 : L.filter (fun x => decide (x ≤ t)) =
        (L.filter (fun x => decide (x ≤ t))).dropLast ++ [t] := by
      conv_lhs => rw [← List.dropLast_append_getLast hPne]
      rw [hu]
    have hL2 : L = (L.filter (fun x => decide (x ≤ t))).dropLast ++
        t :: (L.filter (fun x => !decide (x ≤ t))) := by
      conv_lhs => rw [sorted_filter_decomp t L hs]
      rw [hP2]
      simp
    have hmem := stepWindows_decomp_mem
      ((L.filter (fun x => decide (x ≤ t))).dropLast) L [] t
      (L.filter (fun x => !decide (x ≤ t))) hL2
    have hval : (([] : List ℤ) ++
        (L.filter (fun x => decide (x ≤ t))).dropLast ++ [t]).countP
          (fun x => decide (t - sevenDays ≤ x)) = windowCount L t := by
      simp only [List.nil_append]
      rw [← hP2, List.countP_filter]
      rfl
    rw [← heq]
    exact le_foldr_max _ _ (hval ▸ hmem)

/-- **C5.** `burst_7day_ratio` is `0` for fewer than 5 reviews; otherwise it
is the maximum number of review timestamps falling within any sliding 7-day
window (timestamps sorted ascending, entries strictly older than the current
timestamp minus 7 days evicted), divided by the total review count. -/
theorem burst_ratio_spec (reviews : List PlaceReview) :
    (reviews.length < 5 → calc_burst_ratio reviews reviews.length = 0) ∧
    (5 ≤ reviews.length → calc_burst_ratio reviews reviews.length =
      (windowMax (sortedTimes reviews) : ℚ) / reviews.length) := by
  constructor
  · intro h
    simp only [calc_burst_ratio]
    rw [if_pos h]
  · intro h
    simp only [calc_burst_ratio]
    rw [if_neg (not_lt.mpr h)]
    have hfold : (reviews.map (fun r => r.created_at)).insertionSort (· ≤ ·) =
        sortedTimes reviews := rfl
    rw [hfold]
    have hlen : (sortedTimes reviews).length = reviews.length := by
      unfold sortedTimes
      rw [(List.perm_insertionSort _ _).length_eq, List.length_map]
    have hne : sortedTimes reviews ≠ [] := by
      intro h0
      rw [h0] at hlen
      simp at hlen
      omega
    rw [if_neg hne, if_neg (by omega : ¬reviews.length = 0)]
    have hsorted : List.Sorted (· ≤ ·) (sortedTimes reviews) :=
      List.sorted_insertionSort _ _
    have hmain : burstLoop (sortedTimes reviews) [] 0 =
        windowMax (sortedTimes reviews) := by
      rcases hcases : sortedTimes reviews with _ | ⟨h0, rest⟩
      · exact absurd hcases hne
      · have hcut : ∀ ts ∈ h0 :: rest, h0 - sevenDays ≤ ts - sevenDays := by
          intro ts hts
          rcases List.mem_cons.mp hts with hh | hh
          · omega
          · have := (List.sorted_cons.mp (hcases ▸ hsorted)).1 ts hh
            omega
        have hgo := burstLoop_go (h0 :: rest) [] (h0 - sevenDays) 0
          (by rw [List.nil_append]; exact hcases ▸ hsorted) hcut
        simp only [List.filter_nil] at hgo
        rw [hgo, Nat.zero_max]
        exact stepWindows_foldr_eq_windowMax _ (hcases ▸ hsorted)
    rw [hmain]

theorem burst_ratio_spec_witness :
    5 ≤ ([PlaceReview.mk 5 [] 0, PlaceReview.mk 4 [] 1, PlaceReview.mk 3 [] 2,
      PlaceReview.mk 2 [] 3, PlaceReview.mk 1 [] 4] : List PlaceReview).length ∧
    calc_burst_ratio
      [PlaceReview.mk 5 [] 0, PlaceReview.mk 4 [] 1, PlaceReview.mk 3 [] 2,
        PlaceReview.mk 2 [] 3, PlaceReview.mk 1 [] 4]
      ([PlaceReview.mk 5 [] 0, PlaceReview.mk 4 [] 1, PlaceReview.mk 3 [] 2,
        PlaceReview.mk 2 [] 3, PlaceReview.mk 1 [] 4] : List PlaceReview).length =
      (windowMax (sortedTimes
        [PlaceReview.mk 5 [] 0, PlaceReview.mk 4 [] 1, PlaceReview.mk 3 [] 2,
          PlaceReview.mk 2 [] 3, PlaceReview.mk 1 [] 4]) : ℚ) /
        ([PlaceReview.mk 5 [] 0, PlaceReview.mk 4 [] 1, PlaceReview.mk 3 [] 2,
          PlaceReview.mk 2 [] 3, PlaceReview.mk 1 [] 4] :
            List PlaceReview).length :=
  ⟨by decide, (burst_ratio_spec _).2 (by decide)⟩

theorem extRight_stop (a b : List Char) (p : Char → Bool) (ahi bhi i j k : ℕ)
    (h : (decide (i + k < ahi) && decide (j + k < bhi) && p (charAt b (j + k))
      && (charAt a (i + k) == charAt b (j + k))) = false) :
    ∀ fuel, extRight a b p ahi bhi i j fuel k = k := by
  intro fuel
  cases fuel with
  | zero => rfl
  | succ fuel =>
    rw [extRight, if_neg]
    simp [h]

theorem extRight_full (a : List Char) (p : Char → Bool) (ahi i : ℕ) :
    ∀ fuel k, (∀ t, i + k ≤ t → t < ahi → p (charAt a t) = true) →
      ahi ≤ i + k + fuel → i + k ≤ ahi →
      i + extRight a a p ahi ahi i i fuel k = ahi := by
  intro fuel
  induction fuel with
  | zero =>
    intro k _ hfuel hle
    have : i + k = ahi := by omega
    simp [extRight, this]
  | succ fuel ih =>
    intro k hall hfuel hle
    rcases Nat.lt_or_ge (i + k) ahi with hlt | hge
    · rw [extRight, if_pos]
      · exact ih (k + 1) (fun t ht1 ht2 => hall t (by omega) ht2)
          (by omega) (by omega)
      · simp only [Bool.and_eq_true, decide_eq_true_eq, beq_self_eq_true,
          and_true]
        exact ⟨⟨hlt, hlt⟩, hall (i + k) (le_refl _) hlt⟩
    · have : i + k = ahi := by omega
      rw [extRight, if_neg]
      · omega
      · simp only [Bool.and_eq_true, decide_eq_true_eq]
        intro hcon
        omega

theorem flm_empty (a b : List Char) (junk : Char → Bool) (alo ahi blo bhi : ℕ)
    (h : ahi ≤ alo ∨ bhi ≤ blo) :
    flm a b junk alo ahi blo bhi = (alo, blo, 0) := by
  have hK : min (ahi - alo) (bhi - blo) = 0 := by
    rcases h with h | h <;> simp [Nat.sub_eq_zero_of_le h]
  have hcore : findCore a b junk alo ahi blo bhi = (alo, blo, 0) := by
    unfold findCore
    rw [hK]
    rfl
  simp only [flm, hcore, Nat.sub_self]
  have hstop1 : (decide (alo + 0 < ahi) && decide (blo + 0 < bhi) &&
      (fun ch => !junk ch) (charAt b (blo + 0)) &&
      (charAt a (alo + 0) == charAt b (blo + 0))) = false := by
    rcases h with h | h
    · have : decide (alo + 0 < ahi) = false := by
        simp only [decide_eq_false_iff_not]
        omega
      rw [this]
      simp
    · have : decide (blo + 0 < bhi) = false := by
        simp only [decide_eq_false_iff_not]
        omega
      rw [this]
      simp
  have hstop2 : (decide (alo + 0 < ahi) && decide (blo + 0 < bhi) &&
      junk (charAt b (blo + 0)) &&
      (charAt a (alo + 0) == charAt b (blo + 0))) = false := by
    rcases h with h | h
    · have : decide (alo + 0 < ahi) = false := by
        simp only [decide_eq_false_iff_not]
        omega
      rw [this]
      simp
    · have : decide (blo + 0 < bhi) = false := by
        simp only [decide_eq_false_iff_not]
        omega
      rw [this]
      simp
  have e1 : extLeft a b (fun ch => !junk ch) alo blo 0 (alo, blo, 0) =
      (alo, blo, 0) := rfl
  simp only [e1]
  rw [extRight_stop a b (fun ch => !junk ch) ahi bhi alo blo 0 hstop1]
  simp only [Nat.sub_self]
  have e2 : extLeft a b junk alo blo 0 (alo, blo, 0) = (alo, blo, 0) := rfl
  simp only [e2]
  rw [extRight_stop a b junk ahi bhi alo blo 0 hstop2]

theorem pySlice_one (l : List Char) (t : ℕ) (ht : t < l.length) :
    pySlice l t 1 = [charAt l t] := by
  unfold pySlice charAt
  rw [List.getD_eq_getElem l ' ' ht]
  rw [List.drop_eq_getElem_cons ht]
  rfl

theorem findCore_diag_spec (a : List Char) (junk : Char → Bool) (lo hi : ℕ) :
    (∃ i k, findCore a a junk lo hi lo hi = (i, i, k) ∧ 1 ≤ k ∧ lo ≤ i ∧
      i + k ≤ hi) ∨
    (findCore a a junk lo hi lo hi = (lo, lo, 0) ∧
      ∀ q, 1 ≤ q → q ≤ hi - lo →
        findIJ a a junk lo hi lo hi q = none) := by
  unfold findCore
  cases hbk : bestK (fun k => (findIJ a a junk lo hi lo hi k).map
      (fun ij => (ij.1, ij.2, k))) (min (hi - lo) (hi - lo)) with
  | none =>
    right
    dsimp only
    refine ⟨rfl, fun q hq1 hq2 => ?_⟩
    have := bestK_none _ _ hbk q hq1 (by omega)
    exact Option.map_eq_none'.mp this
  | some r =>
    left
    dsimp only
    obtain ⟨k, hk1, hk2, hk3⟩ := bestK_some _ _ _ hbk
    cases hij : findIJ a a junk lo hi lo hi k with
    | none => rw [hij] at hk3; exact absurd hk3 (by simp)
    | some ij =>
      rw [hij] at hk3
      simp only [Option.map_some', Option.some.injEq] at hk3
      obtain ⟨hok, hilo, hihi, hjlo, hjhi, hminI, hminJ⟩ :=
        findIJ_some a a junk lo hi lo hi k ij.1 ij.2 (by rw [hij])
      rw [okMatch_iff] at hok
      obtain ⟨hc1, hc2, hc3, hc4, hc5, hc6⟩ := hok
      have hji : ij.2 = ij.1 := by
        rcases lt_trichotomy ij.2 ij.1 with hlt | heq | hgt
        · have hok2 : okMatch a a junk lo hi lo hi ij.2 ij.2 k = true := by
            rw [okMatch_iff]
            exact ⟨hc3, hc4, hc3, hc4, rfl, hc6⟩
          have := hminI ij.2 hc3 hlt ij.2 hc3 (by omega)
          rw [hok2] at this
          exact absurd this (by simp)
        · exact heq
        · have hok2 : okMatch a a junk lo hi lo hi ij.1 ij.1 k = true := by
            rw [okMatch_iff]
            refine ⟨hc1, hc2, hc1, hc2, rfl, ?_⟩
            rw [hc5]
            exact hc6
          have := hminJ ij.1 hc1 hgt
          rw [hok2] at this
          exact absurd this (by simp)
      refine ⟨ij.1, k, ?_, hk1, hc1, hc2⟩
      rw [← hk3, hji]

theorem findIJ_none_all_junk (a : List Char) (junk : Char → Bool) (lo hi : ℕ)
    (hhi : hi ≤ a.length)
    (hnone : findIJ a a junk lo hi lo hi 1 = none) :
    ∀ t, lo ≤ t → t < hi → junk (charAt a t) = true := by
  intro t ht1 ht2
  unfold findIJ at hnone
  have h1 := firstHit_none _ _ _ hnone (t - lo) (by omega)
  rw [show lo + (t - lo) = t by omega] at h1
  have h2 := firstHit_none _ _ _ h1 (t - lo) (by omega)
  rw [show lo + (t - lo) = t by omega] at h2
  by_cases hok : okMatch a a junk lo hi lo hi t t 1 = true
  · rw [if_pos hok] at h2
    exact absurd h2 (by simp)
  · rw [okMatch_iff] at hok
    push_neg at hok
    obtain ⟨c, hc, hjc⟩ := hok ht1 (by omega) ht1 (by omega) rfl
    rw [pySlice_one a t (by omega)] at hc
    rw [List.mem_singleton] at hc
    subst hc
    exact Bool.not_eq_false _ ▸ hjc

theorem flm_diag (a : List Char) (junk : Char → Bool) (lo hi : ℕ)
    (hlo : lo < hi) (hhi : hi ≤ a.length) :
    ∃ i k, flm a a junk lo hi lo hi = (i, i, k) ∧ lo ≤ i ∧ i + k ≤ hi ∧
      1 ≤ k := by
  rcases findCore_diag_spec a junk lo hi with
    ⟨i0, k0, hcore, hk0, hi0, hik0⟩ | ⟨hcore, hnone⟩
  · simp only [flm, hcore]
    obtain ⟨e1, e2, e3, e4, e5⟩ :=
      extLeft_spec a a (fun ch => !junk ch) lo lo (i0 - lo) i0 i0 k0 hi0 hi0
    have hd1 := extLeft_diag a a (fun ch => !junk ch) lo lo (i0 - lo) i0 k0
    set c1 := extLeft a a (fun ch => !junk ch) lo lo (i0 - lo) (i0, i0, k0)
      with hc1
    obtain ⟨f1, f2, f3⟩ := extRight_spec a a (fun ch => !junk ch) hi hi
      c1.1 c1.2.1 (hi - (c1.1 + c1.2.2)) c1.2.2
    set k2 := extRight a a (fun ch => !junk ch) hi hi c1.1 c1.2.1
      (hi - (c1.1 + c1.2.2)) c1.2.2 with hk2
    have g2 : c1.1 + k2 ≤ hi := f2 (by omega)
    rw [hd1]
    obtain ⟨e1', e2', e3', e4', e5'⟩ :=
      extLeft_spec a a junk lo lo (c1.1 - lo) c1.1 c1.1 k2 e3 e3
    have hd2 := extLeft_diag a a junk lo lo (c1.1 - lo) c1.1 k2
    set c3 := extLeft a a junk lo lo (c1.1 - lo) (c1.1, c1.1, k2) with hc3
    obtain ⟨f1', f2', f3'⟩ := extRight_spec a a junk hi hi c3.1 c3.2.1
      (hi - (c3.1 + c3.2.2)) c3.2.2
    set k4 := extRight a a junk hi hi c3.1 c3.2.1 (hi - (c3.1 + c3.2.2))
      c3.2.2 with hk4
    refine ⟨c3.1, k4, ?_, e3', ?_, ?_⟩
    · rw [hd2]
    · have := f2' (by omega)
      omega
    · omega
  · have hjunk := findIJ_none_all_junk a junk lo hi hhi
      (hnone 1 (by omega) (by omega))
    refine ⟨lo, hi - lo, ?_, le_refl lo, by omega, by omega⟩
    simp only [flm, hcore, Nat.sub_self]
    have e1 : extLeft a a (fun ch => !junk ch) lo lo 0 (lo, lo, 0) =
        (lo, lo, 0) := rfl
    simp only [e1]
    have hstop1 : (decide (lo + 0 < hi) && decide (lo + 0 < hi) &&
        (fun ch => !junk ch) (charAt a (lo + 0)) &&
        (charAt a (lo + 0) == charAt a (lo + 0))) = false := by
      have hj := hjunk lo (le_refl lo) hlo
      rw [show lo + 0 = lo from rfl]
      simp [hj]
    rw [extRight_stop a a (fun ch => !junk ch) hi hi lo lo 0 hstop1]
    simp only [Nat.sub_self]
    have e2 : extLeft a a junk lo lo 0 (lo, lo, 0) = (lo, lo, 0) := rfl
    simp only [e2]
    have hfull := extRight_full a junk hi lo (hi - (lo + 0)) 0
      (fun t ht1 ht2 => hjunk t (by omega) ht2) (by omega) (by omega)
    have hval : extRight a a junk hi hi lo lo (hi - (lo + 0)) 0 = hi - lo := by
      omega
    rw [hval]

theorem matchSumF_diag (a : List Char) (junk : Char → Bool) :
    ∀ fuel lo hi, hi ≤ a.length → hi - lo < fuel →
      matchSumF a a junk fuel lo hi lo hi = hi - lo := by
  intro fuel
  induction fuel with
  | zero => intro lo hi _ hf; omega
  | succ fuel ih =>
    intro lo hi hhi hf
    rw [matchSumF]
    by_cases hempty : hi ≤ lo
    · rw [flm_empty a a junk lo hi lo hi (Or.inl hempty)]
      norm_num
      omega
    · obtain ⟨i, k, heq, hbi, hbk, hk1⟩ :=
        flm_diag a junk lo hi (by omega) hhi
      rw [heq]
      rw [if_neg (by omega : ¬k = 0)]
      dsimp only
      rw [ih lo i (by omega) (by omega), ih (i + k) hi (by omega) (by omega)]
      omega

theorem matchTotal_self (a : List Char) (junk : Char → Bool) :
    matchTotal a a junk = a.length := by
  unfold matchTotal
  rw [matchSumF_diag a junk (a.length + 1) 0 a.length (le_refl _) (by omega)]
  omega

theorem smRatio_self (a : List Char) (ha : a ≠ []) : smRatio a a = 1 := by
  have hlen : a.length ≠ 0 := fun h => ha (List.length_eq_zero.mp h)
  unfold smRatio
  rw [if_neg (by omega : ¬(a.length + a.length = 0))]
  rw [matchTotal_self]
  have hpos : (0 : ℚ) < (a.length : ℚ) + (a.length : ℚ) := by
    have : 0 < a.length := Nat.pos_of_ne_zero hlen
    positivity
  rw [div_eq_one_iff_eq (ne_of_gt hpos)]
  ring

/-- **C7.** `rating_diff` is `None` exactly when either rating is absent and
otherwise equals `place.rating - competing_rating`; `name_similarity` is
`None` exactly when the competing name is absent or either name normalizes
to the empty string, and otherwise is a similarity in `[0,1]` that is `1`
for identical normalized names. -/
theorem optional_signals_spec (p : PlaceData) (r : AnalyzeRequest) :
    ((analyze_place p r).signals.rating_diff_google_minus_tabelog = none ↔
      p.rating = none ∨ r.tabelog_rating = none) ∧
    (∀ g t, p.rating = some g → r.tabelog_rating = some t →
      (analyze_place p r).signals.rating_diff_google_minus_tabelog =
        some (g - t)) ∧
    ((analyze_place p r).signals.name_similarity_google_vs_tabelog = none ↔
      r.tabelog_name = none ∨ ∃ t, r.tabelog_name = some t ∧
        (normalize_name p.name = [] ∨ normalize_name t = [])) ∧
    (∀ v, (analyze_place p r).signals.name_similarity_google_vs_tabelog =
        some v → 0 ≤ v ∧ v ≤ 1) ∧
    (∀ t, r.tabelog_name = some t → normalize_name t ≠ [] →
      normalize_name p.name = normalize_name t →
      (analyze_place p r).signals.name_similarity_google_vs_tabelog =
        some 1) := by
  refine ⟨?_, ?_, ?_, ?_, ?_⟩
  · show calc_rating_diff p.rating r.tabelog_rating = none ↔ _
    rcases p.rating with _ | g <;> rcases r.tabelog_rating with _ | t <;>
      simp [calc_rating_diff]
  · intro g t hg ht
    show calc_rating_diff p.rating r.tabelog_rating = some (g - t)
    rw [hg, ht]
    rfl
  · show calc_name_similarity p.name r.tabelog_name = none ↔ _
    rcases hn : r.tabelog_name with _ | t
    · simp [calc_name_similarity]
    · unfold calc_name_similarity
      dsimp only
      by_cases ht0 : t = []
      · subst ht0
        rw [if_pos rfl]
        constructor
        · intro _
          exact Or.inr ⟨[], rfl, Or.inr rfl⟩
        · intro _
          rfl
      · rw [if_neg ht0]
        by_cases hnn : normalize_name p.name = [] ∨ normalize_name t = []
        · rw [if_pos hnn]
          constructor
          · intro _
            exact Or.inr ⟨t, rfl, hnn⟩
          · intro _
            rfl
        · rw [if_neg hnn]
          constructor
          · intro hc
            exact absurd hc (by simp)
          · rintro (hc | ⟨t', ht', hc⟩)
            · exact absurd hc (by simp)
            · injection ht' with ht'
              subst ht'
              exact absurd hc hnn
  · intro v hv
    exact calc_name_similarity_mem_unit p.name r.tabelog_name v hv
  · intro t ht htne hgt
    show calc_name_similarity p.name r.tabelog_name = some 1
    rw [ht]
    unfold calc_name_similarity
    dsimp only
    rw [if_neg (fun h0 => htne (by rw [h0]; rfl))]
    rw [if_neg (by rw [hgt]; exact fun h => h.elim htne htne)]
    rw [hgt, smRatio_self _ htne]

theorem optional_signals_spec_witness :
    (analyze_place
        (PlaceData.mk [] "ab".toList (some 4) none [])
        (AnalyzeRequest.mk [] (some 3) none (some "ab".toList))).signals.rating_diff_google_minus_tabelog
      = some (4 - 3) ∧
    (analyze_place
        (PlaceData.mk [] "ab".toList (some 4) none [])
        (AnalyzeRequest.mk [] (some 3) none (some "ab".toList))).signals.name_similarity_google_vs_tabelog
      = some 1 :=
  ⟨(optional_signals_spec
      (PlaceData.mk [] "ab".toList (some 4) none [])
      (AnalyzeRequest.mk [] (some 3) none (some "ab".toList))).2.1 4 3 rfl rfl,
   (optional_signals_spec
      (PlaceData.mk [] "ab".toList (some 4) none [])
      (AnalyzeRequest.mk [] (some 3) none (some "ab".toList))).2.2.2.2
      ("ab".toList) rfl (by decide) (by decide)⟩
